import Mathlib

set_option maxHeartbeats 1000000

/-!
Verification development for the MoneyPilot backend's LLM orchestration core:
the JSON utilities (`app/utils/json_utils.py`), the tool executor
(`app/services/llm/tool_executor.py`), the tool registry
(`app/utils/tool_registry.py`) and the query service
(`app/services/llm_service.py`).

Modelling conventions:
* Python's arbitrary-precision integers are `Int`; JSON numeric literals are
  modelled as integers (floating point literals are out of scope).
* Python whitespace sets: `json` module whitespace is space/tab/LF/CR;
  `str.strip()` and the regex class `\s` are modelled by the six ASCII
  whitespace characters (space, tab, LF, CR, FF, VT).
* `json.loads` is modelled by a fuel-indexed recursive-descent parser
  (`parseValue` etc.) so that every definition is executable by kernel
  reduction; `jsonLoads` supplies ample fuel.  Lone UTF-16 surrogate escapes
  are rejected by the model (Python keeps them; no claim depends on them).
* `json.dumps` is modelled with its default options: `ensure_ascii=True`
  and separators `", "` / `": "`.
-/

/-- The backtick character, written via its code point. -/
def backtickC : Char := Char.ofNat 96

/-- The opening curly brace character. -/
def lbraceC : Char := Char.ofNat 123

/-- The closing curly brace character. -/
def rbraceC : Char := Char.ofNat 125

/-- Whitespace accepted between tokens by Python's `json` module. -/
def isJsonWs (c : Char) : Bool := c = ' ' || c = '\t' || c = '\n' || c = '\r'

/-- ASCII whitespace as used by Python's `str.strip()` and the regex class
for spaces (space, tab, LF, CR, FF, VT). -/
def isPySpace (c : Char) : Bool :=
  c = ' ' || c = '\t' || c = '\n' || c = '\r' || c = Char.ofNat 12 || c = Char.ofNat 11

/-- Skip JSON inter-token whitespace, as the `json` scanner does. -/
def skipWs (s : List Char) : List Char := s.dropWhile isJsonWs

/-- Decimal digit test. -/
def isDigitCh (c : Char) : Bool := '0' ≤ c && c ≤ '9'

/-- JSON values as produced by `json.loads` (numbers restricted to integers). -/
inductive Json where
  | null : Json
  | bool (b : Bool) : Json
  | num (n : Int) : Json
  | str (s : String) : Json
  | arr (elems : List Json) : Json
  | obj (members : List (String × Json)) : Json

/-- Character for a single decimal digit. -/
def digitChar (d : Nat) : Char := Char.ofNat (48 + d)

/-- Fueled digit accumulator for rendering naturals in decimal. -/
def natDigitsGo : Nat → Nat → List Char → List Char
  | 0, _, acc => acc
  | f + 1, m, acc =>
    if m < 10 then digitChar m :: acc
    else natDigitsGo f (m / 10) (digitChar (m % 10) :: acc)

/-- Decimal digits of a natural number, most significant first. -/
def natDigits (n : Nat) : List Char := natDigitsGo (n + 1) n []

/-- Decimal rendering of an integer, as Python prints `int`. -/
def intChars (n : Int) : List Char :=
  if n < 0 then '-' :: natDigits n.natAbs else natDigits n.natAbs

/-- Lowercase hexadecimal digit. -/
def hexDigitChar (d : Nat) : Char :=
  if d < 10 then Char.ofNat (48 + d) else Char.ofNat (87 + d)

/-- Four lowercase hex digits, as in a JSON `\uXXXX` escape. -/
def hex4Chars (n : Nat) : List Char :=
  [hexDigitChar (n / 4096 % 16), hexDigitChar (n / 256 % 16),
   hexDigitChar (n / 16 % 16), hexDigitChar (n % 16)]

/-- Escape one character the way Python's `json.dumps` (ensure_ascii=True)
renders string contents. -/
def escChar (c : Char) : List Char :=
  if c = '"' then ['\\', '"']
  else if c = '\\' then ['\\', '\\']
  else if c = '\n' then ['\\', 'n']
  else if c = '\t' then ['\\', 't']
  else if c = '\r' then ['\\', 'r']
  else if c = Char.ofNat 8 then ['\\', 'b']
  else if c = Char.ofNat 12 then ['\\', 'f']
  else if c.toNat < 32 then '\\' :: 'u' :: hex4Chars c.toNat
  else if c.toNat < 127 then [c]
  else if c.toNat < 65536 then '\\' :: 'u' :: hex4Chars c.toNat
  else
    '\\' :: 'u' :: hex4Chars (55296 + (c.toNat - 65536) / 1024) ++
      ('\\' :: 'u' :: hex4Chars (56320 + (c.toNat - 65536) % 1024))

/-- JSON string literal for `s`, including the surrounding quotes. -/
def encodeStr (s : String) : List Char :=
  '"' :: s.data.foldr (fun c acc => escChar c ++ acc) ['"']

mutual

/-- Characters emitted by `json.dumps` (default options) for a value. -/
def dumpChars : Json → List Char
  | .null => ['n', 'u', 'l', 'l']
  | .bool b => if b then ['t', 'r', 'u', 'e'] else ['f', 'a', 'l', 's', 'e']
  | .num n => intChars n
  | .str s => encodeStr s
  | .arr vs => '[' :: dumpElems vs ++ [']']
  | .obj ms => lbraceC :: dumpMembers ms ++ [rbraceC]

/-- Array elements joined by the default item separator. -/
def dumpElems : List Json → List Char
  | [] => []
  | [v] => dumpChars v
  | v :: vs => dumpChars v ++ ',' :: ' ' :: dumpElems vs

/-- Object members joined by the default separators. -/
def dumpMembers : List (String × Json) → List Char
  | [] => []
  | [(k, v)] => encodeStr k ++ ':' :: ' ' :: dumpChars v
  | (k, v) :: ms => encodeStr k ++ ':' :: ' ' :: dumpChars v ++ ',' :: ' ' :: dumpMembers ms

end

/-- Model of `json.dumps` with default arguments. -/
def jsonDumps (v : Json) : String := String.mk (dumpChars v)

/-- Expect a literal run of characters, returning the rest. -/
def expectChars : List Char → List Char → Option (List Char)
  | [], s => some s
  | c :: cs, d :: s => if d = c then expectChars cs s else none
  | _ :: _, [] => none

/-- Value of a hexadecimal digit, if any. -/
def hexVal? (c : Char) : Option Nat :=
  if '0' ≤ c ∧ c ≤ '9' then some (c.toNat - 48)
  else if 'a' ≤ c ∧ c ≤ 'f' then some (c.toNat - 87)
  else if 'A' ≤ c ∧ c ≤ 'F' then some (c.toNat - 55)
  else none

/-- Value of four hexadecimal digits. -/
def hex4? (a b c d : Char) : Option Nat :=
  match hexVal? a, hexVal? b, hexVal? c, hexVal? d with
  | some x, some y, some z, some w => some (4096 * x + 256 * y + 16 * z + w)
  | _, _, _, _ => none

/-- Parse the body of a JSON string literal (the opening quote already
consumed), returning the decoded characters and the input after the closing
quote.  Mirrors Python's strict `py_scanstring`, except that lone surrogate
escapes are rejected. -/
def parseStr : List Char → Option (List Char × List Char)
  | [] => none
  | '"' :: rest => some ([], rest)
  | '\\' :: esc =>
    match esc with
    | '"' :: r => (parseStr r).map (fun p => ('"' :: p.1, p.2))
    | '\\' :: r => (parseStr r).map (fun p => ('\\' :: p.1, p.2))
    | '/' :: r => (parseStr r).map (fun p => ('/' :: p.1, p.2))
    | 'b' :: r => (parseStr r).map (fun p => (Char.ofNat 8 :: p.1, p.2))
    | 'f' :: r => (parseStr r).map (fun p => (Char.ofNat 12 :: p.1, p.2))
    | 'n' :: r => (parseStr r).map (fun p => ('\n' :: p.1, p.2))
    | 'r' :: r => (parseStr r).map (fun p => ('\r' :: p.1, p.2))
    | 't' :: r => (parseStr r).map (fun p => ('\t' :: p.1, p.2))
    | 'u' :: a :: b :: c :: d :: r =>
      match hex4? a b c d with
      | none => none
      | some n =>
        if 55296 ≤ n ∧ n ≤ 56319 then
          match r with
          | '\\' :: 'u' :: a2 :: b2 :: c2 :: d2 :: r2 =>
            match hex4? a2 b2 c2 d2 with
            | some m =>
              if 56320 ≤ m ∧ m ≤ 57343 then
                (parseStr r2).map (fun p =>
                  (Char.ofNat (65536 + (n - 55296) * 1024 + (m - 56320)) :: p.1, p.2))
              else none
            | none => none
          | _ => none
        else if 56320 ≤ n ∧ n ≤ 57343 then none
        else (parseStr r).map (fun p => (Char.ofNat n :: p.1, p.2))
    | _ => none
  | c :: rest =>
    if 32 ≤ c.toNat then (parseStr rest).map (fun p => (c :: p.1, p.2)) else none

/-- Accumulated value of a run of decimal digits. -/
def digitsVal (ds : List Char) : Nat :=
  ds.foldl (fun a c => a * 10 + (c.toNat - 48)) 0

/-- Parse a natural-number token the way Python's json number scanner
treats the integer part: a single `0`, or a nonzero digit followed by the
maximal run of digits. -/
def parseNat : List Char → Option (Nat × List Char)
  | [] => none
  | c :: rest =>
    if c = '0' then some (0, rest)
    else if '1' ≤ c ∧ c ≤ '9' then
      some (digitsVal (c :: rest.takeWhile isDigitCh), rest.dropWhile isDigitCh)
    else none

/-- Parse an integer JSON number (optionally negative). -/
def parseNum : List Char → Option (Json × List Char)
  | '-' :: rest => (parseNat rest).map (fun p => (.num (-(p.1 : Int)), p.2))
  | s => (parseNat s).map (fun p => (.num (p.1 : Int), p.2))

mutual

/-- Fueled recursive-descent parser for a JSON value, mirroring Python's
`json.loads` scanner positioned at a value start (no leading whitespace). -/
def parseValue : Nat → List Char → Option (Json × List Char)
  | 0, _ => none
  | _ + 1, [] => none
  | n + 1, c :: r =>
    if c = '"' then (parseStr r).map (fun p => (.str (String.mk p.1), p.2))
    else if c = lbraceC then (parseObjTail n (skipWs r)).map (fun p => (.obj p.1, p.2))
    else if c = '[' then (parseArrTail n (skipWs r)).map (fun p => (.arr p.1, p.2))
    else if c = 't' then (expectChars ['r', 'u', 'e'] r).map (fun r2 => (.bool true, r2))
    else if c = 'f' then (expectChars ['a', 'l', 's', 'e'] r).map (fun r2 => (.bool false, r2))
    else if c = 'n' then (expectChars ['u', 'l', 'l'] r).map (fun r2 => (.null, r2))
    else parseNum (c :: r)

/-- After `[` and whitespace: an empty array or the first element. -/
def parseArrTail : Nat → List Char → Option (List Json × List Char)
  | 0, _ => none
  | _ + 1, [] => none
  | n + 1, c :: r =>
    if c = ']' then some ([], r)
    else
      match parseValue n (c :: r) with
      | some (v, r1) => (parseArrSep n r1).map (fun p => (v :: p.1, p.2))
      | none => none

/-- After an array element: whitespace then `,` (next element) or `]`. -/
def parseArrSep : Nat → List Char → Option (List Json × List Char)
  | 0, _ => none
  | n + 1, s =>
    match skipWs s with
    | [] => none
    | c :: r =>
      if c = ']' then some ([], r)
      else if c = ',' then
        match parseValue n (skipWs r) with
        | some (v, r2) => (parseArrSep n r2).map (fun p => (v :: p.1, p.2))
        | none => none
      else none

/-- After `{` and whitespace: an empty object or the first member's key. -/
def parseObjTail : Nat → List Char → Option (List (String × Json) × List Char)
  | 0, _ => none
  | n + 1, s =>
    match s with
    | c :: r =>
      if c = rbraceC then some ([], r)
      else if c = '"' then parseMember n r
      else none
    | [] => none

/-- After a member key's opening quote: key, colon, value, then more members. -/
def parseMember : Nat → List Char → Option (List (String × Json) × List Char)
  | 0, _ => none
  | n + 1, s =>
    match parseStr s with
    | some (kcs, r1) =>
      match skipWs r1 with
      | [] => none
      | c :: r2 =>
        if c = ':' then
          match parseValue n (skipWs r2) with
          | some (v, r3) => (parseObjSep n r3).map (fun p => ((String.mk kcs, v) :: p.1, p.2))
          | none => none
        else none
    | none => none

/-- After an object member: whitespace then `,` (next member) or `}`. -/
def parseObjSep : Nat → List Char → Option (List (String × Json) × List Char)
  | 0, _ => none
  | n + 1, s =>
    match skipWs s with
    | c :: r =>
      if c = rbraceC then some ([], r)
      else if c = ',' then
        match skipWs r with
        | [] => none
        | c2 :: r2 => if c2 = '"' then parseMember n r2 else none
      else none
    | [] => none

end

/-- Model of `json.loads`: skip whitespace, parse one value, skip
whitespace, and require the end of input.  The fuel `2·|s| + 2` always
suffices (see `parseValue_fuel`). -/
def jsonLoads (s : String) : Option Json :=
  match parseValue (2 * s.data.length + 2) (skipWs s.data) with
  | some (v, r) => if skipWs r = [] then some v else none
  | none => none

/-- Python `str.strip()`: drop ASCII whitespace from both ends (the model
restricts Python's Unicode whitespace to the six ASCII characters). -/
def pyStrip (cs : List Char) : List Char :=
  ((cs.dropWhile isPySpace).reverse.dropWhile isPySpace).reverse

/-- Check that after dropping regex whitespace the input starts with three
backticks; this is how the lazy tail `\s*``​`` of the fence pattern can
complete at the current position. -/
def wsThenFence (v : List Char) : Bool :=
  (v.dropWhile isPySpace).take 3 = [backtickC, backtickC, backtickC]

/-- Scan for the least `k` such that the fence pattern's `\s*``​`` tail
matches at position `k`; the lazy group `(.*?)` is the prefix before it. -/
def fenceInner : List Char → Option (List Char)
  | [] => if wsThenFence [] then some [] else none
  | c :: rest =>
    if wsThenFence (c :: rest) then some []
    else (fenceInner rest).map (fun g => c :: g)

/-- Try to match `` ```(?:json)?\s*(.*?)\s*``` `` at the start of `t`,
returning group 1.  The optional `json` tag is greedy with backtracking. -/
def fenceMatchAt (t : List Char) : Option (List Char) :=
  match expectChars [backtickC, backtickC, backtickC] t with
  | none => none
  | some u =>
    match
      (match expectChars ['j', 's', 'o', 'n'] u with
       | some u2 => fenceInner (u2.dropWhile isPySpace)
       | none => none) with
    | some g => some g
    | none => fenceInner (u.dropWhile isPySpace)

/-- `re.search` for the fence pattern: leftmost matching start position. -/
def fenceSearch : List Char → Option (List Char)
  | [] => fenceMatchAt []
  | c :: rest =>
    match fenceMatchAt (c :: rest) with
    | some g => some g
    | none => fenceSearch rest

/-- Fueled model of `re.sub(r",\s*X", "X", ...)` for a closing character
`X`: scanning left to right, a comma followed by whitespace and `X` is
replaced by `X`. -/
def subCommaClose : Nat → Char → List Char → List Char
  | 0, _, cs => cs
  | _ + 1, _, [] => []
  | f + 1, close, c :: rest =>
    if c = ',' then
      match (rest.dropWhile isPySpace).head? with
      | some d =>
        if d = close then close :: subCommaClose f close (rest.dropWhile isPySpace).tail
        else c :: subCommaClose f close rest
      | none => c :: subCommaClose f close rest
    else c :: subCommaClose f close rest

/-- Opening bracket characters of the span pattern `[{\[].*[}\]]`. -/
def isOpenCh (c : Char) : Bool := c = lbraceC || c = '['

/-- Closing bracket characters of the span pattern. -/
def isCloseCh (c : Char) : Bool := c = rbraceC || c = ']'

/-- Prefix of `l` up to and including its last closing bracket. -/
def takeToLastClose (l : List Char) : List Char :=
  (l.reverse.dropWhile (fun c => !isCloseCh c)).reverse

/-- `re.search(r"[{\[].*[}\]]", ..., DOTALL)`: leftmost opening bracket
with some closing bracket after it; the greedy `.*` extends to the last
closing bracket. -/
def spanSearch : List Char → Option (List Char)
  | [] => none
  | c :: rest =>
    if isOpenCh c && rest.any isCloseCh then some (c :: takeToLastClose rest)
    else spanSearch rest

/-- Errors modelled after `LLMException(message, details)`. -/
structure LLMErr where
  message : String
  details : Option Json

/-- Second parse attempt of `clean_json_response`: find a fenced code block
and parse its stripped contents; `none` both when there is no match and
when the inner parse fails (both fall through to the third attempt). -/
def fenceAttempt (response : String) : Option Json :=
  match fenceSearch response.data with
  | some g => jsonLoads (String.mk (pyStrip g))
  | none => none

/-- Third parse attempt of `clean_json_response`: strip trailing commas
before `}` and `]`, then parse the leftmost greedy bracket span. -/
def bracketAttempt (response : String) : Option Json :=
  let c1 := subCommaClose (response.data.length + 1) rbraceC response.data
  let c2 := subCommaClose (c1.length + 1) ']' c1
  match spanSearch c2 with
  | some g => jsonLoads (String.mk g)
  | none => none

/-- Truncated preview attached to the final parse error: the first 1000
characters, with an ellipsis marker when the input was longer. -/
def previewTrunc (s : String) : String :=
  if 1000 < s.length then s.take 1000 ++ "..." else s

/-- Model of `clean_json_response` (`app/utils/json_utils.py`): an empty
input fails immediately; otherwise a direct parse, then the fenced-block
attempt, then the bracket-span attempt; if all fail, an `LLMException`
carrying the truncated preview is raised. -/
def clean_json_response (response : String) : Except LLMErr Json :=
  if response = "" then .error ⟨"Empty response received", none⟩
  else
    match jsonLoads response with
    | some v => .ok v
    | none =>
      match fenceAttempt response with
      | some v => .ok v
      | none =>
        match bracketAttempt response with
        | some v => .ok v
        | none =>
          .error ⟨"Failed to parse JSON response after all attempts",
                  some (.obj [("response", .str (previewTrunc response))])⟩

/-- A Python object passed to `safe_json_dumps`: either a JSON-serializable
value or a non-serializable object carrying its `str()` representation. -/
inductive PyObj where
  | json (v : Json) : PyObj
  | nonser (srepr : String) : PyObj

/-- `json.dumps` on a `PyObj`: fails (raises `TypeError`) on
non-serializable objects. -/
def pyJsonDumps : PyObj → Option String
  | .json v => some (jsonDumps v)
  | .nonser _ => none

/-- `str()` of a `PyObj` (only used on the fallback path of
`safe_json_dumps`, where serialization failed). -/
def pyStr : PyObj → String
  | .json v => jsonDumps v
  | .nonser srepr => srepr

/-- Model of `safe_json_dumps` (`app/utils/json_utils.py`): serialize, and
on `TypeError`/`ValueError` fall back to the JSON encoding of `str(obj)`. -/
def safe_json_dumps (obj : PyObj) : String :=
  match pyJsonDumps obj with
  | some s => s
  | none => jsonDumps (.str (pyStr obj))

/-- A tool-call function payload (`app/schema/llm/tool.py`; that schema file
is absent from the source tree, so the record is modelled from the spec's
ToolCallRequest: name and raw JSON argument text). -/
structure ToolCallFunction where
  name : String
  arguments : String

/-- A tool call emitted by the model (spec: ToolCallRequest {id,
function_name, arguments}). -/
structure ToolCall where
  id : String
  function : ToolCallFunction

/-- A tool result message (spec: ToolResultMessage, a message carrying
`tool_call_id` and `tool_name`). -/
structure ToolMessage where
  role : String
  tool_call_id : String
  name : String
  content : String

/-- A Python exception: its class name and its `str()` text. -/
structure PyExc where
  etype : String
  msg : String

/-- What a registered tool callable may return, matching the branches that
`_serialize_result` probes for: an object with a `json()` method, an object
with a `model_dump()` method, a native JSON-primitive value, or any other
object (carrying its `str()` representation). -/
inductive ToolRet where
  | jsonMethod (out : String) : ToolRet
  | modelDump (dump : PyObj) : ToolRet
  | prim (v : Json) : ToolRet
  | opaqueObj (srepr : String) : ToolRet

/-- A registered tool callable: keyword arguments to a result or a raised
exception. -/
def ToolFn : Type := List (String × Json) → Except PyExc ToolRet

/-- A registry entry: the tool's name (its class name), the dumped schema
(abstracted to its serialized form) and the callable. -/
structure ToolEntry where
  name : String
  schema : String
  fn : ToolFn

/-- The environment the executor and service run against: the collected
tool registry, plus the `str()` rendering of `json.JSONDecodeError`s
(abstracted: the model does not reproduce CPython's error strings). -/
structure ExecEnv where
  registry : List ToolEntry
  decodeErr : String → String

/-- `ToolRegistry.list_tool_names`. -/
def list_tool_names (env : ExecEnv) : List String := env.registry.map ToolEntry.name

/-- Python's `repr` of a list of plain strings, as an f-string renders
`available_tools`. -/
def pyListRepr (xs : List String) : String :=
  "[" ++ String.intercalate (", ") (xs.map (fun s => "'" ++ s ++ "'")) ++ "]"

/-- Registry lookup (`ToolRegistry.get_tool`). -/
def get_tool (env : ExecEnv) (name : String) : Option ToolEntry :=
  env.registry.find? (fun e => e.name = name)

/-- `ToolRegistry.get_tool_function`: the callable, or a `ValueError`
naming the available tools. -/
def get_tool_function (env : ExecEnv) (name : String) : Except PyExc ToolFn :=
  match get_tool env name with
  | some e => .ok e.fn
  | none =>
    .error ⟨"ValueError",
      "Tool '" ++ name ++ "' not found. Available tools: " ++ pyListRepr (list_tool_names env)⟩

/-- `ToolRegistry.get_tool_schemas`: schemas for the requested names, or a
`ValueError` on the first unknown name. -/
def get_tool_schemas (env : ExecEnv) : List String → Except String (List String)
  | [] => .ok []
  | name :: rest =>
    match get_tool env name with
    | some e =>
      match get_tool_schemas env rest with
      | .ok schemas => .ok (e.schema :: schemas)
      | .error msg => .error msg
    | none =>
      .error ("Unknown tool: " ++ name ++ ". Available tools: " ++
        pyListRepr (list_tool_names env))

/-- Python type name of a parsed JSON value, as `type(args).__name__`. -/
def pyTypeName : Json → String
  | .null => "NoneType"
  | .bool _ => "bool"
  | .num _ => "int"
  | .str _ => "str"
  | .arr _ => "list"
  | .obj _ => "dict"

/-- Model of `ToolExecutor._serialize_result`: the duck-typed precedence
(a) `result.json()`, (b) `safe_json_dumps(result.model_dump())`,
(c) `safe_json_dumps(result)` for JSON primitives,
(d) `safe_json_dumps(str(result))`. -/
def serialize_result : ToolRet → String
  | .jsonMethod out => out
  | .modelDump dump => safe_json_dumps dump
  | .prim v => safe_json_dumps (.json v)
  | .opaqueObj srepr => safe_json_dumps (.json (.str srepr))

/-- Model of `ToolExecutor._execute_single_tool`: parse the arguments text
as JSON (raising `ValueError` on failure), require a dict, resolve the tool
in the registry (re-raising its `ValueError`), invoke it, and wrap the
serialized result in a `ToolMessage`; any exception propagates to the
caller. -/
def execute_single_tool (env : ExecEnv) (call : ToolCall) : Except PyExc ToolMessage :=
  let name := call.function.name
  match jsonLoads call.function.arguments with
  | none => .error ⟨"ValueError",
      "Invalid JSON in tool arguments: " ++ env.decodeErr call.function.arguments⟩
  | some args =>
    match args with
    | .obj kvs =>
      match get_tool_function env name with
      | .error e => .error e
      | .ok f =>
        match f kvs with
        | .error e => .error e
        | .ok result =>
          .ok ⟨"tool", call.id, name, serialize_result result⟩
    | other => .error ⟨"ValueError",
        "Tool arguments must be a dictionary, got " ++ pyTypeName other⟩

/-- Model of `ToolExecutor._create_error_message`: a tool `ToolMessage`
whose content is the safe JSON encoding of
`{error, error_type, tool_name}`. -/
def create_error_message (call : ToolCall) (error : PyExc) : ToolMessage :=
  ⟨"tool", call.id, call.function.name,
    safe_json_dumps (.json (.obj
      [("error", .str error.msg),
       ("error_type", .str error.etype),
       ("tool_name", .str call.function.name)]))⟩

/-- Model of `ToolExecutor.execute_tool_calls`: one result per call, in
order; a per-call exception is caught and converted by
`_create_error_message`, so the function is total. -/
def execute_tool_calls (env : ExecEnv) (tool_calls : List ToolCall) : List ToolMessage :=
  tool_calls.map (fun call =>
    match execute_single_tool env call with
    | .ok m => m
    | .error e => create_error_message call e)

/-- The tool invocations (name and parsed keyword arguments) that a batch
actually performs: the calls that pass argument parsing, the dict check and
registry resolution. -/
def toolInvocations (env : ExecEnv) (tool_calls : List ToolCall) : List (String × List (String × Json)) :=
  tool_calls.filterMap (fun call =>
    match jsonLoads call.function.arguments with
    | some (.obj kvs) =>
      match get_tool env call.function.name with
      | some _ => some (call.function.name, kvs)
      | none => none
    | _ => none)

/-- A chat message (`app/schema/llm/message.py`; that schema file is absent
from the source tree, so the record is modelled from the spec's Message:
role and content). -/
structure Message where
  role : String
  content : String

/-- The assistant message inside a chat completion choice: its content
(possibly null) and its tool calls (`None` modelled as the empty list). -/
structure AssistantMsg where
  content : Option String
  tool_calls : List ToolCall

/-- A chat completion, restricted to its primary choice's message. -/
structure Completion where
  message : AssistantMsg

/-- An entry of a request's `messages` list: the `model_dump()` of an input
message, of the assistant's tool-call-bearing message, or of a tool result
message. -/
inductive OutMsg where
  | origDump (m : Message) : OutMsg
  | assistantDump (a : AssistantMsg) : OutMsg
  | toolDump (t : ToolMessage) : OutMsg

/-- A chat-completion request as assembled by `_make_llm_request` and
`_handle_tool_workflow` (the model name is fixed, `**kwargs` beyond
temperature and top_p are dropped). -/
structure Request where
  messages : List OutMsg
  max_tokens : Int
  tools : Option (List String)
  response_format_json : Bool
  temperature : Option ℚ
  top_p : Option ℚ

/-- An error escaping `query_llm`: a `ValueError` from parameter
validation, or an `LLMException` with message and optional details. -/
inductive QErr where
  | valueError (msg : String) : QErr
  | llmError (msg : String) (details : Option Json) : QErr

/-- The successful result of `query_llm`: the raw assistant message, or the
parsed JSON value when `json_response` was requested. -/
inductive QueryOut where
  | message (m : AssistantMsg) : QueryOut
  | json (v : Json) : QueryOut

/-- Model of `LLMService._normalize_messages`. -/
def normalize_messages : Sum Message (List Message) → List Message
  | .inl m => [m]
  | .inr ms => ms

/-- The `tools` argument of `query_llm` normalized by `_prepare_tools`. -/
def normalizeToolNames : Sum String (List String) → List String
  | .inl s => [s]
  | .inr l => l

/-- Python truthiness of the `tools` argument (`if tools`): absent, the
empty string and the empty list are falsy. -/
def toolsTruthy : Option (Sum String (List String)) → Bool
  | none => false
  | some (.inl s) => s ≠ ""
  | some (.inr l) => l ≠ []

/-- Model of `LLMService._prepare_tools`: resolve the requested names to
schemas via the registry (the registry's `ValueError` text passes through). -/
def prepare_tools (env : ExecEnv) (tools : Sum String (List String)) : Except String (List String) :=
  get_tool_schemas env (normalizeToolNames tools)

/-- Parameter validation performed by `query_llm` before any network call,
in source order; returns the `ValueError` message of the first failing
check.  The numeric rendering inside messages approximates Python's float
formatting. -/
def validation_error (p_max_tokens : Int) (p_temperature p_top_p : Option ℚ) : Option String :=
  if p_max_tokens ≤ 0 then
    some ("max_tokens must be positive, got " ++ toString p_max_tokens)
  else if (p_temperature.map (fun t => decide (0 ≤ t) && decide (t ≤ 2))).getD true = false then
    some ("temperature must be between 0 and 2, got " ++ (p_temperature.map toString).getD "")
  else if (p_top_p.map (fun t => decide (0 ≤ t) && decide (t ≤ 1))).getD true = false then
    some ("top_p must be between 0 and 1, got " ++ (p_top_p.map toString).getD "")
  else none

/-- Model of `LLMService._process_response`: with `json_response`, null
content and whitespace-only content raise `LLMException`; otherwise a
direct parse, falling back to `clean_json_response`.  Without
`json_response` the assistant message is returned as is. -/
def process_response (completion : Completion) (json_response : Bool) : Except QErr QueryOut :=
  if json_response then
    match completion.message.content with
    | none => .error (.llmError ("LLM returned None content for JSON response") none)
    | some s =>
      if pyStrip s.data = [] then
        .error (.llmError ("LLM returned empty content for JSON response") none)
      else
        match jsonLoads s with
        | some v => .ok (.json v)
        | none =>
          match clean_json_response s with
          | .ok v => .ok (.json v)
          | .error er => .error (.llmError er.message er.details)
  else .ok (.message completion.message)

/-- The follow-up message list built by `_handle_tool_workflow`: the
original messages' dumps, the assistant's tool-call-bearing message's dump,
then one dump per tool result, in order. -/
def followUpMessages (msgs : List Message) (am : AssistantMsg) (results : List ToolMessage) : List OutMsg :=
  msgs.map OutMsg.origDump ++ [OutMsg.assistantDump am] ++ results.map OutMsg.toolDump

/-- The exception-wrapping policy of `query_llm`'s `try` body:
`LLMException` propagates unchanged, every other exception is wrapped. -/
def wrapExc (e : PyExc) : QErr :=
  if e.etype = "LLMException" then .llmError e.msg none
  else .llmError ("Failed to query LLM: " ++ e.msg) none

/-- Model of `LLMService.query_llm` over an abstract network
`net : Request → Except PyExc Completion` (the retry-wrapped client call).
Returns the outcome together with the trace of requests issued.
Validation happens before the `try` block, so its `ValueError`s escape
unwrapped; everything inside the `try` is subject to `wrapExc`; a single
tool round executes the calls and issues a follow-up request. -/
def query_llm (net : Request → Except PyExc Completion) (env : ExecEnv)
    (messages : Sum Message (List Message)) (json_response : Bool)
    (tools : Option (Sum String (List String))) (max_tokens : Int)
    (temperature top_p : Option ℚ) : Except QErr QueryOut × List Request :=
  match validation_error max_tokens temperature top_p with
  | some msg => (.error (.valueError msg), [])
  | none =>
    let normalized := normalize_messages messages
    match (match tools with
           | some arg =>
             if toolsTruthy (some arg) then (prepare_tools env arg).map some else .ok none
           | none => .ok none) with
    | .error msg => (.error (.llmError ("Failed to query LLM: " ++ msg) none), [])
    | .ok prepared =>
      let req1 : Request :=
        { messages := normalized.map OutMsg.origDump
          max_tokens := max_tokens
          tools := match prepared with
                   | some l => if l.isEmpty then none else some l
                   | none => none
          response_format_json := json_response
          temperature := temperature
          top_p := top_p }
      match net req1 with
      | .error e => (.error (wrapExc e), [req1])
      | .ok completion =>
        if completion.message.tool_calls.isEmpty then
          (process_response completion json_response, [req1])
        else
          let tool_results := execute_tool_calls env completion.message.tool_calls
          let req2 : Request :=
            { messages := followUpMessages normalized completion.message tool_results
              max_tokens := max_tokens
              tools := none
              response_format_json := json_response
              temperature := temperature
              top_p := top_p }
          match net req2 with
          | .error e => (.error (wrapExc e), [req1, req2])
          | .ok completion2 => (process_response completion2 json_response, [req1, req2])

/-- Elements of a dumped array after the first one: each is preceded by the
default item separator `", "`. -/
def arrSepChars : List Json → List Char
  | [] => []
  | v :: vs => ',' :: ' ' :: (dumpChars v ++ arrSepChars vs)

/-- Members of a dumped object after the first one: each is preceded by the
default item separator `", "`. -/
def objSepChars : List (String × Json) → List Char
  | [] => []
  | (k, v) :: ms =>
    ',' :: ' ' :: (encodeStr k ++ ':' :: ' ' :: dumpChars v ++ objSepChars ms)

/-- Whether three consecutive backticks occur anywhere in the list. -/
def hasTriple : List Char → Bool
  | c1 :: c2 :: c3 :: rest =>
    (c1 = backtickC && c2 = backtickC && c3 = backtickC) || hasTriple (c2 :: c3 :: rest)
  | _ => false


theorem dropWhile_append_of_ne_nil {p : Char → Bool} {x y : List Char}
    (h : x.dropWhile p ≠ []) : (x ++ y).dropWhile p = x.dropWhile p ++ y := by
  induction x with
  | nil => exact absurd rfl h
  | cons c x ih =>
    by_cases hc : p c
    · simpa [List.dropWhile_cons, hc] using ih (by simpa [List.dropWhile_cons, hc] using h)
    · simp [List.dropWhile_cons, hc]

theorem dropWhile_append_all {p : Char → Bool} {x y : List Char}
    (h : ∀ c ∈ x, p c = true) : (x ++ y).dropWhile p = y.dropWhile p := by
  induction x with
  | nil => rfl
  | cons c x ih =>
    simp only [List.cons_append, List.dropWhile_cons, h c (by simp)]
    exact ih (fun d hd => h d (by simp [hd]))

theorem dropWhile_cons_of_neg {p : Char → Bool} {c : Char} {x : List Char}
    (h : ¬ p c) : (c :: x).dropWhile p = c :: x := by
  simp [List.dropWhile_cons, h]

theorem dropWhile_length_le (p : Char → Bool) (x : List Char) :
    (x.dropWhile p).length ≤ x.length := by
  induction x with
  | nil => simp
  | cons c x ih =>
    by_cases hc : p c
    · simp only [List.dropWhile_cons, hc, if_true]
      exact Nat.le_succ_of_le ih
    · simp [List.dropWhile_cons, hc]

theorem append_right_cancel_eq {q p r : List Char} (h : q ++ r = p ++ r) : q = p := by
  have hlen : q.length = p.length := by
    have := congrArg List.length h
    simp at this
    omega
  exact (List.append_inj_left h hlen)

/-- Whitespace characters are among the four JSON whitespace characters. -/
theorem jsonWs_cases {c : Char} (h : isJsonWs c = true) :
    c = ' ' ∨ c = '\t' ∨ c = '\n' ∨ c = '\r' := by
  simp only [isJsonWs, Bool.or_eq_true, decide_eq_true_eq] at h
  tauto

/-- JSON whitespace is also Python `\s`/`strip` whitespace. -/
theorem jsonWs_pySpace {c : Char} (h : isJsonWs c = true) : isPySpace c = true := by
  rcases jsonWs_cases h with h | h | h | h <;> subst h <;> decide

/-- JSON whitespace characters are not digits. -/
theorem jsonWs_not_digit {c : Char} (h : isJsonWs c = true) : isDigitCh c = false := by
  rcases jsonWs_cases h with h | h | h | h <;> subst h <;> decide

theorem skipWs_eq_nil_all {r : List Char} (h : skipWs r = []) : ∀ c ∈ r, isJsonWs c = true :=
  List.dropWhile_eq_nil_iff.1 h

theorem skipWs_all_nil {r : List Char} (h : ∀ c ∈ r, isJsonWs c = true) : skipWs r = [] :=
  List.dropWhile_eq_nil_iff.2 h

theorem chunk_split (q r chunk t : List Char) (h : q ++ r = chunk ++ t)
    (hlen : chunk.length ≤ q.length) : ∃ q0, q = chunk ++ q0 ∧ t = q0 ++ r := by
  have hpre : chunk <+: q := by
    refine List.prefix_of_prefix_length_le ⟨t, h.symm⟩ ⟨r, rfl⟩ hlen
  obtain ⟨q0, hq0⟩ := hpre
  refine ⟨q0, hq0.symm, ?_⟩
  have h2 : chunk ++ (q0 ++ r) = chunk ++ t := by
    rw [← List.append_assoc, hq0, h]
  exact (List.append_cancel_left h2).symm

theorem expectChars_eq {lit : List Char} : ∀ {s t : List Char},
    expectChars lit s = some t → s = lit ++ t := by
  induction lit with
  | nil => intro s t h; simpa [expectChars] using h
  | cons c cs ih =>
    intro s t h
    cases s with
    | nil => simp [expectChars] at h
    | cons d s2 =>
      simp only [expectChars] at h
      split at h
      · rename_i hd
        subst hd
        simpa using ih h
      · exact absurd h (by simp)

theorem expectChars_self (lit : List Char) : ∀ t, expectChars lit (lit ++ t) = some t := by
  induction lit with
  | nil => intro t; rfl
  | cons c cs ih => intro t; simp [expectChars, ih]

theorem parseStr_shape (s : List Char) :
    ∀ cs r, parseStr s = some (cs, r) → ∃ q, s = q ++ '"' :: r := by
  induction s using parseStr.induct with
  | case1 => intro cs r h; simp [parseStr] at h
  | case2 rest =>
    intro cs r h
    simp only [parseStr, Option.some.injEq, Prod.mk.injEq] at h
    exact ⟨[], by simp [h.2]⟩
  | case3 r0 ih =>
    intro cs r h
    simp only [parseStr, Option.map_eq_some'] at h
    obtain ⟨⟨cs2, r2⟩, hp, heq⟩ := h
    cases heq
    obtain ⟨q, hq⟩ := ih _ _ hp
    exact ⟨'\\' :: '"' :: q, by simp [hq]⟩
  | case4 r0 ih =>
    intro cs r h
    simp only [parseStr, Option.map_eq_some'] at h
    obtain ⟨⟨cs2, r2⟩, hp, heq⟩ := h
    cases heq
    obtain ⟨q, hq⟩ := ih _ _ hp
    exact ⟨'\\' :: '\\' :: q, by simp [hq]⟩
  | case5 r0 ih =>
    intro cs r h
    simp only [parseStr, Option.map_eq_some'] at h
    obtain ⟨⟨cs2, r2⟩, hp, heq⟩ := h
    cases heq
    obtain ⟨q, hq⟩ := ih _ _ hp
    exact ⟨'\\' :: '/' :: q, by simp [hq]⟩
  | case6 r0 ih =>
    intro cs r h
    simp only [parseStr, Option.map_eq_some'] at h
    obtain ⟨⟨cs2, r2⟩, hp, heq⟩ := h
    cases heq
    obtain ⟨q, hq⟩ := ih _ _ hp
    exact ⟨'\\' :: 'b' :: q, by simp [hq]⟩
  | case7 r0 ih =>
    intro cs r h
    simp only [parseStr, Option.map_eq_some'] at h
    obtain ⟨⟨cs2, r2⟩, hp, heq⟩ := h
    cases heq
    obtain ⟨q, hq⟩ := ih _ _ hp
    exact ⟨'\\' :: 'f' :: q, by simp [hq]⟩
  | case8 r0 ih =>
    intro cs r h
    simp only [parseStr, Option.map_eq_some'] at h
    obtain ⟨⟨cs2, r2⟩, hp, heq⟩ := h
    cases heq
    obtain ⟨q, hq⟩ := ih _ _ hp
    exact ⟨'\\' :: 'n' :: q, by simp [hq]⟩
  | case9 r0 ih =>
    intro cs r h
    simp only [parseStr, Option.map_eq_some'] at h
    obtain ⟨⟨cs2, r2⟩, hp, heq⟩ := h
    cases heq
    obtain ⟨q, hq⟩ := ih _ _ hp
    exact ⟨'\\' :: 'r' :: q, by simp [hq]⟩
  | case10 r0 ih =>
    intro cs r h
    simp only [parseStr, Option.map_eq_some'] at h
    obtain ⟨⟨cs2, r2⟩, hp, heq⟩ := h
    cases heq
    obtain ⟨q, hq⟩ := ih _ _ hp
    exact ⟨'\\' :: 't' :: q, by simp [hq]⟩
  | case11 a b c d r0 hhex =>
    intro cs r h
    simp [parseStr, hhex] at h
  | case12 a b c d n hhex hin a2 b2 c2 d2 r2 m hhex2 hin2 ih =>
    intro cs r h
    simp only [parseStr, hhex, hhex2, if_pos hin, if_pos hin2, Option.map_eq_some'] at h
    obtain ⟨⟨cs2, r3⟩, hp, heq⟩ := h
    cases heq
    obtain ⟨q, hq⟩ := ih _ _ hp
    exact ⟨'\\' :: 'u' :: a :: b :: c :: d :: '\\' :: 'u' :: a2 :: b2 :: c2 :: d2 :: q,
      by simp [hq]⟩
  | case13 a b c d n hhex hin a2 b2 c2 d2 r2 m hhex2 hnin2 =>
    intro cs r h
    simp only [parseStr, hhex, hhex2, if_pos hin, if_neg hnin2] at h
    exact absurd h (by simp)
  | case14 a b c d n hhex hin a2 b2 c2 d2 r2 hhex2 =>
    intro cs r h
    simp [parseStr, hhex, hhex2, if_pos hin] at h
  | case15 a b c d r0 n hhex hin hnc =>
    intro cs r h
    simp only [parseStr, hhex, if_pos hin] at h
    exact absurd h (by simp)
  | case16 a b c d r0 n hhex hnin hlo =>
    intro cs r h
    simp only [parseStr, hhex, if_neg hnin, if_pos hlo] at h
    exact absurd h (by simp)
  | case17 a b c d r0 n hhex hnin hnlo ih =>
    intro cs r h
    simp only [parseStr, hhex, if_neg hnin, if_neg hnlo, Option.map_eq_some'] at h
    obtain ⟨⟨cs2, r2⟩, hp, heq⟩ := h
    cases heq
    obtain ⟨q, hq⟩ := ih _ _ hp
    exact ⟨'\\' :: 'u' :: a :: b :: c :: d :: q, by simp [hq]⟩
  | case18 esc h1 h2 h3 h4 h5 h6 h7 h8 h9 =>
    intro cs r h
    simp only [parseStr] at h
    exact absurd h (by simp)
  | case19 c rest hc1 hc2 hc3 ih =>
    intro cs r h
    simp only [parseStr, if_pos hc3, Option.map_eq_some'] at h
    obtain ⟨⟨cs2, r2⟩, hp, heq⟩ := h
    cases heq
    obtain ⟨q, hq⟩ := ih _ _ hp
    exact ⟨c :: q, by simp [hq]⟩
  | case20 c rest hc1 hc2 hc3 =>
    intro cs r h
    simp only [parseStr, if_neg hc3] at h
    exact absurd h (by simp)

theorem parseStr_len {s cs r : List Char} (h : parseStr s = some (cs, r)) :
    r.length < s.length := by
  obtain ⟨q, hq⟩ := parseStr_shape s cs r h
  subst hq
  simp
  omega


theorem parseStr_pd (s : List Char) :
    ∀ cs r q r2, parseStr s = some (cs, r) → s = q ++ r →
      parseStr (q ++ r2) = some (cs, r2) := by
  induction s using parseStr.induct with
  | case1 =>
    intro cs r q r2 h
    simp [parseStr] at h
  | case2 rest =>
    intro cs r q r2 h hqr
    simp only [parseStr, Option.some.injEq, Prod.mk.injEq] at h
    obtain ⟨hcs, hr⟩ := h
    subst hcs
    subst hr
    have hlen := congrArg List.length hqr
    simp at hlen
    obtain ⟨q0, hq, hr0⟩ := chunk_split q rest ['"'] rest (by simpa using hqr.symm)
      (by simp; omega)
    have hq0 : q0 = [] := by
      have h3 := congrArg List.length hr0
      simp at h3
      exact h3
    subst hq0
    subst hq
    simp [parseStr]
  | case3 r0 ih =>
    intro cs r q r2 h hqr
    simp only [parseStr, Option.map_eq_some'] at h
    obtain ⟨⟨cs2, rr⟩, hp, heq⟩ := h
    cases heq
    have hr0len := parseStr_len hp
    have hlen := congrArg List.length hqr
    simp at hlen
    obtain ⟨q0, hq, hr0⟩ := chunk_split q rr ('\\' :: '"' :: []) r0 (by simpa using hqr.symm) (by simp; omega)
    subst hq
    have hih := ih _ _ _ r2 hp hr0
    simp [parseStr, hih]
  | case4 r0 ih =>
    intro cs r q r2 h hqr
    simp only [parseStr, Option.map_eq_some'] at h
    obtain ⟨⟨cs2, rr⟩, hp, heq⟩ := h
    cases heq
    have hr0len := parseStr_len hp
    have hlen := congrArg List.length hqr
    simp at hlen
    obtain ⟨q0, hq, hr0⟩ := chunk_split q rr ('\\' :: '\\' :: []) r0 (by simpa using hqr.symm) (by simp; omega)
    subst hq
    have hih := ih _ _ _ r2 hp hr0
    simp [parseStr, hih]
  | case5 r0 ih =>
    intro cs r q r2 h hqr
    simp only [parseStr, Option.map_eq_some'] at h
    obtain ⟨⟨cs2, rr⟩, hp, heq⟩ := h
    cases heq
    have hr0len := parseStr_len hp
    have hlen := congrArg List.length hqr
    simp at hlen
    obtain ⟨q0, hq, hr0⟩ := chunk_split q rr ('\\' :: '/' :: []) r0 (by simpa using hqr.symm) (by simp; omega)
    subst hq
    have hih := ih _ _ _ r2 hp hr0
    simp [parseStr, hih]
  | case6 r0 ih =>
    intro cs r q r2 h hqr
    simp only [parseStr, Option.map_eq_some'] at h
    obtain ⟨⟨cs2, rr⟩, hp, heq⟩ := h
    cases heq
    have hr0len := parseStr_len hp
    have hlen := congrArg List.length hqr
    simp at hlen
    obtain ⟨q0, hq, hr0⟩ := chunk_split q rr ('\\' :: 'b' :: []) r0 (by simpa using hqr.symm) (by simp; omega)
    subst hq
    have hih := ih _ _ _ r2 hp hr0
    simp [parseStr, hih]
  | case7 r0 ih =>
    intro cs r q r2 h hqr
    simp only [parseStr, Option.map_eq_some'] at h
    obtain ⟨⟨cs2, rr⟩, hp, heq⟩ := h
    cases heq
    have hr0len := parseStr_len hp
    have hlen := congrArg List.length hqr
    simp at hlen
    obtain ⟨q0, hq, hr0⟩ := chunk_split q rr ('\\' :: 'f' :: []) r0 (by simpa using hqr.symm) (by simp; omega)
    subst hq
    have hih := ih _ _ _ r2 hp hr0
    simp [parseStr, hih]
  | case8 r0 ih =>
    intro cs r q r2 h hqr
    simp only [parseStr, Option.map_eq_some'] at h
    obtain ⟨⟨cs2, rr⟩, hp, heq⟩ := h
    cases heq
    have hr0len := parseStr_len hp
    have hlen := congrArg List.length hqr
    simp at hlen
    obtain ⟨q0, hq, hr0⟩ := chunk_split q rr ('\\' :: 'n' :: []) r0 (by simpa using hqr.symm) (by simp; omega)
    subst hq
    have hih := ih _ _ _ r2 hp hr0
    simp [parseStr, hih]
  | case9 r0 ih =>
    intro cs r q r2 h hqr
    simp only [parseStr, Option.map_eq_some'] at h
    obtain ⟨⟨cs2, rr⟩, hp, heq⟩ := h
    cases heq
    have hr0len := parseStr_len hp
    have hlen := congrArg List.length hqr
    simp at hlen
    obtain ⟨q0, hq, hr0⟩ := chunk_split q rr ('\\' :: 'r' :: []) r0 (by simpa using hqr.symm) (by simp; omega)
    subst hq
    have hih := ih _ _ _ r2 hp hr0
    simp [parseStr, hih]
  | case10 r0 ih =>
    intro cs r q r2 h hqr
    simp only [parseStr, Option.map_eq_some'] at h
    obtain ⟨⟨cs2, rr⟩, hp, heq⟩ := h
    cases heq
    have hr0len := parseStr_len hp
    have hlen := congrArg List.length hqr
    simp at hlen
    obtain ⟨q0, hq, hr0⟩ := chunk_split q rr ('\\' :: 't' :: []) r0 (by simpa using hqr.symm) (by simp; omega)
    subst hq
    have hih := ih _ _ _ r2 hp hr0
    simp [parseStr, hih]
  | case11 a b c d r0 hhex =>
    intro cs r q r2 h
    simp [parseStr, hhex] at h
  | case12 a b c d n hhex hin a2 b2 c2 d2 r0 m hhex2 hin2 ih =>
    intro cs r q r2 h hqr
    simp only [parseStr, hhex, hhex2, if_pos hin, if_pos hin2, Option.map_eq_some'] at h
    obtain ⟨⟨cs2, rr⟩, hp, heq⟩ := h
    cases heq
    have hr0len := parseStr_len hp
    have hlen := congrArg List.length hqr
    simp at hlen
    obtain ⟨q0, hq, hr0⟩ := chunk_split q rr ('\\' :: 'u' :: a :: b :: c :: d :: '\\' :: 'u' :: a2 :: b2 :: c2 :: d2 :: []) r0 (by simpa using hqr.symm) (by simp; omega)
    subst hq
    have hih := ih _ _ _ r2 hp hr0
    simp [parseStr, hhex, hhex2, if_pos hin, if_pos hin2, hih]
  | case13 a b c d n hhex hin a2 b2 c2 d2 r0 m hhex2 hnin2 =>
    intro cs r q r2 h
    simp only [parseStr, hhex, hhex2, if_pos hin, if_neg hnin2] at h
    exact fun _ => absurd h (by simp)
  | case14 a b c d n hhex hin a2 b2 c2 d2 r0 hhex2 =>
    intro cs r q r2 h
    simp [parseStr, hhex, hhex2, if_pos hin] at h
  | case15 a b c d r0 n hhex hin hnc =>
    intro cs r q r2 h
    simp only [parseStr, hhex, if_pos hin] at h
    exact fun _ => absurd h (by simp)
  | case16 a b c d r0 n hhex hnin hlo =>
    intro cs r q r2 h
    simp only [parseStr, hhex, if_neg hnin, if_pos hlo] at h
    exact fun _ => absurd h (by simp)
  | case17 a b c d r0 n hhex hnin hnlo ih =>
    intro cs r q r2 h hqr
    simp only [parseStr, hhex, if_neg hnin, if_neg hnlo, Option.map_eq_some'] at h
    obtain ⟨⟨cs2, rr⟩, hp, heq⟩ := h
    cases heq
    have hr0len := parseStr_len hp
    have hlen := congrArg List.length hqr
    simp at hlen
    obtain ⟨q0, hq, hr0⟩ := chunk_split q rr ('\\' :: 'u' :: a :: b :: c :: d :: []) r0 (by simpa using hqr.symm) (by simp; omega)
    subst hq
    have hih := ih _ _ _ r2 hp hr0
    simp [parseStr, hhex, if_neg hnin, if_neg hnlo, hih]
  | case18 esc h1 h2 h3 h4 h5 h6 h7 h8 h9 =>
    intro cs r q r2 h
    simp only [parseStr] at h
    exact fun _ => absurd h (by simp)
  | case19 c rest hc1 hc2 hc3 ih =>
    intro cs r q r2 h hqr
    simp only [parseStr, if_pos hc3, Option.map_eq_some'] at h
    obtain ⟨⟨cs2, rr⟩, hp, heq⟩ := h
    cases heq
    have hr0len := parseStr_len hp
    have hlen := congrArg List.length hqr
    simp at hlen
    obtain ⟨q0, hq, hr0⟩ := chunk_split q rr [c] rest (by simpa using hqr.symm) (by simp; omega)
    subst hq
    have hih := ih _ _ _ r2 hp hr0
    simp [parseStr, if_pos hc3, hih]
  | case20 c rest hc1 hc2 hc3 =>
    intro cs r q r2 h
    simp only [parseStr, if_neg hc3] at h
    exact fun _ => absurd h (by simp)

/-- The head of a consumed chunk is never Python whitespace. -/
def headNonWs (p : List Char) : Prop := ∀ c, p.head? = some c → isPySpace c = false

/-- The last character of a consumed chunk is never Python whitespace. -/
def lastNonWs (p : List Char) : Prop := ∀ c, p.getLast? = some c → isPySpace c = false

theorem digit_not_pySpace {c : Char} (h : isDigitCh c = true) : isPySpace c = false := by
  simp only [isDigitCh, Bool.and_eq_true, decide_eq_true_eq] at h
  simp only [isPySpace, Bool.or_eq_false_iff, decide_eq_false_iff_not]
  refine ⟨⟨⟨⟨⟨?_, ?_⟩, ?_⟩, ?_⟩, ?_⟩, ?_⟩ <;>
    (intro he; subst he; exact absurd h (by decide))

theorem getLast?_all {p : Char → Bool} : ∀ {l : List Char}, (∀ c ∈ l, p c = true) →
    ∀ d, l.getLast? = some d → p d = true := by
  intro l hall d hd
  obtain ⟨hne, heq⟩ := List.mem_getLast?_eq_getLast hd
  exact heq ▸ hall _ (List.getLast_mem hne)

theorem takeWhile_append_exact {p : Char → Bool} {x y : List Char}
    (hx : ∀ c ∈ x, p c = true) (hy : ∀ d, y.head? = some d → p d = false) :
    (x ++ y).takeWhile p = x ∧ (x ++ y).dropWhile p = y := by
  induction x with
  | nil =>
    cases y with
    | nil => simp
    | cons d y2 =>
      have := hy d rfl
      simp [List.takeWhile_cons, List.dropWhile_cons, this]
  | cons c x ih =>
    have hc := hx c (by simp)
    have hrest := ih (fun d hd => hx d (by simp [hd]))
    simp [List.takeWhile_cons, List.dropWhile_cons, hc, hrest.1, hrest.2]

theorem parseNat_shape {s : List Char} {k : Nat} {r : List Char}
    (h : parseNat s = some (k, r)) :
    ∃ q, s = q ++ r ∧ q ≠ [] ∧ (∀ c ∈ q, isDigitCh c = true) := by
  cases s with
  | nil => simp [parseNat] at h
  | cons c rest =>
    simp only [parseNat] at h
    split at h
    · rename_i hc
      subst hc
      simp only [Option.some.injEq, Prod.mk.injEq] at h
      refine ⟨['0'], by simp [h.2], by simp, ?_⟩
      intro d hd
      simp at hd
      subst hd
      decide
    · split at h
      · rename_i hc19
        simp only [Option.some.injEq, Prod.mk.injEq] at h
        refine ⟨c :: rest.takeWhile isDigitCh, ?_, by simp, ?_⟩
        · rw [← h.2]
          simp [List.takeWhile_append_dropWhile]
        · intro d hd
          rcases List.mem_cons.1 hd with hd | hd
          · subst hd
            simp only [isDigitCh, Bool.and_eq_true, decide_eq_true_eq]
            constructor
            · exact le_trans (by decide) hc19.1
            · exact le_trans hc19.2 (by decide)
          · exact List.mem_takeWhile_imp hd
      · exact absurd h (by simp)

theorem parseNum_shape {s : List Char} {v : Json} {r : List Char}
    (h : parseNum s = some (v, r)) :
    ∃ q, s = q ++ r ∧ q ≠ [] ∧ headNonWs q ∧ lastNonWs q ∧
      (∀ c ∈ q, isDigitCh c = true ∨ c = '-') := by
  cases s with
  | nil => simp [parseNum, parseNat] at h
  | cons c rest =>
    by_cases hminus : c = '-'
    · subst hminus
      simp only [parseNum, Option.map_eq_some'] at h
      obtain ⟨⟨k, r2⟩, hp, heq⟩ := h
      cases heq
      obtain ⟨q, hq, hne, hdig⟩ := parseNat_shape hp
      refine ⟨'-' :: q, by simp [hq], by simp, ?_, ?_, ?_⟩
      · intro d hd
        simp at hd
        subst hd
        decide
      · intro d hd
        rw [show ('-' :: q) = ['-'] ++ q from rfl,
          List.getLast?_append_of_ne_nil ['-'] hne] at hd
        exact digit_not_pySpace (getLast?_all hdig d hd)
      · intro d hd
        rcases List.mem_cons.1 hd with hd | hd
        · exact Or.inr hd
        · exact Or.inl (hdig d hd)
    · have hpn : parseNum (c :: rest) =
          (parseNat (c :: rest)).map (fun p => (Json.num (p.1 : Int), p.2)) := by
        simp [parseNum, hminus]
      rw [hpn] at h
      obtain ⟨⟨k, r2⟩, hp, heq⟩ := Option.map_eq_some'.1 h
      cases heq
      obtain ⟨q, hq, hne, hdig⟩ := parseNat_shape hp
      refine ⟨q, hq, hne, ?_, ?_, fun d hd => Or.inl (hdig d hd)⟩
      · intro d hd
        exact digit_not_pySpace (hdig d (by
          cases q with
          | nil => simp at hd
          | cons a q2 => simp at hd; simp [hd]))
      · intro d hd
        exact digit_not_pySpace (getLast?_all hdig d hd)

theorem parseNat_pd {s : List Char} {k : Nat} {r q r2 : List Char}
    (h : parseNat s = some (k, r)) (hqr : s = q ++ r)
    (hbnd : ∀ d, r2.head? = some d → isDigitCh d = false) :
    parseNat (q ++ r2) = some (k, r2) := by
  cases s with
  | nil => simp [parseNat] at h
  | cons c rest =>
    simp only [parseNat] at h
    split at h
    · rename_i hc
      subst hc
      simp only [Option.some.injEq, Prod.mk.injEq] at h
      obtain ⟨hk, hr⟩ := h
      subst hk
      subst hr
      have hlen := congrArg List.length hqr
      simp at hlen
      obtain ⟨q0, hq, hr0⟩ := chunk_split q rest ['0'] rest (by simpa using hqr.symm)
        (by simp; omega)
      have hq0 : q0 = [] := by
        have h3 := congrArg List.length hr0
        simp at h3
        exact h3
      subst hq0
      simp only [List.append_nil] at hq
      subst hq
      simp [parseNat]
    · split at h
      · rename_i hc0 hc19
        simp only [Option.some.injEq, Prod.mk.injEq] at h
        obtain ⟨hk, hr⟩ := h
        have hsplit : rest = rest.takeWhile isDigitCh ++ r := by
          rw [← hr]
          exact (List.takeWhile_append_dropWhile _ _).symm
        have hq : q = c :: rest.takeWhile isDigitCh := by
          have h2 : (c :: rest.takeWhile isDigitCh) ++ r = q ++ r := by
            rw [List.cons_append, ← hsplit]
            exact hqr
          exact (append_right_cancel_eq h2).symm
        subst hq
        have htw : ∀ d ∈ rest.takeWhile isDigitCh, isDigitCh d = true :=
          fun d hd => List.mem_takeWhile_imp hd
        have hta := takeWhile_append_exact htw hbnd
        have hc0b : ¬ c = '0' := hc0
        simp only [List.cons_append, parseNat, if_neg hc0b, if_pos hc19, hta.1, hta.2]
        exact congrArg some (congrArg (fun z => (z, r2)) hk)
      · exact absurd h (by simp)

theorem parseNum_pd {s : List Char} {v : Json} {r q r2 : List Char}
    (h : parseNum s = some (v, r)) (hqr : s = q ++ r)
    (hbnd : ∀ d, r2.head? = some d → isDigitCh d = false) :
    parseNum (q ++ r2) = some (v, r2) := by
  cases s with
  | nil => simp [parseNum, parseNat] at h
  | cons c rest =>
    by_cases hminus : c = '-'
    · subst hminus
      simp only [parseNum] at h
      match hpm : parseNat rest with
      | none => rw [hpm] at h; simp at h
      | some (k, rr) =>
        rw [hpm] at h
        simp only [Option.map_some', Option.some.injEq, Prod.mk.injEq] at h
        obtain ⟨hv, hr⟩ := h
        subst hv
        subst hr
        obtain ⟨qn, hqn, hne, _⟩ := parseNat_shape hpm
        have hq : q = '-' :: qn := by
          have h2 : ('-' :: qn) ++ rr = q ++ rr := by
            rw [List.cons_append, ← hqn]
            exact hqr
          exact (append_right_cancel_eq h2).symm
        subst hq
        have hn2 := parseNat_pd hpm hqn hbnd
        simp [parseNum, hn2]
    · have hpn : parseNum (c :: rest) =
          (parseNat (c :: rest)).map (fun p => (Json.num (p.1 : Int), p.2)) := by
        simp [parseNum, hminus]
      rw [hpn] at h
      match hpm : parseNat (c :: rest) with
      | none => rw [hpm] at h; simp at h
      | some (k, rr) =>
        rw [hpm] at h
        simp only [Option.map_some', Option.some.injEq, Prod.mk.injEq] at h
        obtain ⟨hv, hr⟩ := h
        subst hv
        subst hr
        obtain ⟨qn, hqn, hne, _⟩ := parseNat_shape hpm
        have hqne : q ≠ [] := by
          intro hq0
          subst hq0
          simp only [List.nil_append] at hqr
          have hlen := congrArg List.length hqn
          rw [← hqr] at hlen
          simp only [List.length_cons, List.length_append] at hlen
          have hq0 : qn.length = 0 := by omega
          exact hne (List.eq_nil_of_length_eq_zero hq0)
        obtain ⟨q1, hq1⟩ : ∃ q1, q = c :: q1 := by
          cases q with
          | nil => exact absurd rfl hqne
          | cons a q1 =>
            simp only [List.cons_append, List.cons.injEq] at hqr
            exact ⟨q1, by rw [hqr.1]⟩
        subst hq1
        have hrest : rest = q1 ++ rr := by
          simpa using hqr
        have hn2 := parseNat_pd hpm (show (c :: rest) = (c :: q1) ++ rr by simp [hrest]) hbnd
        have hpn2 : parseNum ((c :: q1) ++ r2) =
            (parseNat ((c :: q1) ++ r2)).map (fun p => (Json.num (p.1 : Int), p.2)) := by
          simp [parseNum, hminus]
        rw [hpn2, hn2]
        rfl

theorem getLast?_append_right {x q : List Char} (hq : q ≠ []) :
    (x ++ q).getLast? = q.getLast? := List.getLast?_append_of_ne_nil x hq

theorem takeWhile_ws_all (s : List Char) : ∀ c ∈ s.takeWhile isJsonWs, isJsonWs c = true :=
  fun _ hc => List.mem_takeWhile_imp hc

theorem parseFam_shape (n : Nat) :
    (∀ s v r, parseValue n s = some (v, r) →
      ∃ p, s = p ++ r ∧ p ≠ [] ∧ headNonWs p ∧ lastNonWs p) ∧
    (∀ s vs r, parseArrTail n s = some (vs, r) →
      ∃ p, s = p ++ r ∧ p ≠ [] ∧ p.getLast? = some ']') ∧
    (∀ s vs r, parseArrSep n s = some (vs, r) →
      ∃ p, s = p ++ r ∧ p ≠ [] ∧ p.getLast? = some ']') ∧
    (∀ s ms r, parseObjTail n s = some (ms, r) →
      ∃ p, s = p ++ r ∧ p ≠ [] ∧ p.getLast? = some rbraceC) ∧
    (∀ s ms r, parseMember n s = some (ms, r) →
      ∃ p, s = p ++ r ∧ p ≠ [] ∧ p.getLast? = some rbraceC) ∧
    (∀ s ms r, parseObjSep n s = some (ms, r) →
      ∃ p, s = p ++ r ∧ p ≠ [] ∧ p.getLast? = some rbraceC) := by
  induction n with
  | zero =>
    refine ⟨?_, ?_, ?_, ?_, ?_, ?_⟩ <;> intro s a r h <;> simp [parseValue,
      parseArrTail, parseArrSep, parseObjTail, parseMember, parseObjSep] at h
  | succ n ih =>
    obtain ⟨ihV, ihAT, ihAS, ihOT, ihM, ihOS⟩ := ih
    refine ⟨?_, ?_, ?_, ?_, ?_, ?_⟩
    · -- parseValue
      intro s v r h
      cases s with
      | nil => simp [parseValue] at h
      | cons c r0 =>
        simp only [parseValue] at h
        split_ifs at h with hc1 hc2 hc3 hc4 hc5 hc6
        · subst hc1
          obtain ⟨⟨cs, rr⟩, hp, heq⟩ := Option.map_eq_some'.1 h
          cases heq
          obtain ⟨q, hq⟩ := parseStr_shape r0 cs rr hp
          refine ⟨'"' :: (q ++ ['"']), by simp [hq], by simp, ?_, ?_⟩
          · intro d hd
            simp at hd
            subst hd
            decide
          · intro d hd
            rw [show ('"' :: (q ++ ['"'])) = ('"' :: q) ++ ['"'] by simp,
              getLast?_append_right (by simp)] at hd
            simp at hd
            subst hd
            decide
        · subst hc2
          obtain ⟨⟨ms, rr⟩, hp, heq⟩ := Option.map_eq_some'.1 h
          cases heq
          obtain ⟨q, hq, hqne, hql⟩ := ihOT _ _ _ hp
          refine ⟨lbraceC :: (r0.takeWhile isJsonWs ++ q), ?_, by simp, ?_, ?_⟩
          · calc lbraceC :: r0 = lbraceC :: (r0.takeWhile isJsonWs ++ skipWs r0) := by
                  simp only [skipWs, List.takeWhile_append_dropWhile]
            _ = lbraceC :: (r0.takeWhile isJsonWs ++ q) ++ rr := by
                  rw [hq]
                  simp
          · intro d hd
            simp at hd
            subst hd
            decide
          · intro d hd
            rw [show (lbraceC :: (r0.takeWhile isJsonWs ++ q)) =
                (lbraceC :: r0.takeWhile isJsonWs) ++ q by simp,
              getLast?_append_right hqne, hql] at hd
            simp at hd
            subst hd
            decide
        · subst hc3
          obtain ⟨⟨vs, rr⟩, hp, heq⟩ := Option.map_eq_some'.1 h
          cases heq
          obtain ⟨q, hq, hqne, hql⟩ := ihAT _ _ _ hp
          refine ⟨'[' :: (r0.takeWhile isJsonWs ++ q), ?_, by simp, ?_, ?_⟩
          · calc '[' :: r0 = '[' :: (r0.takeWhile isJsonWs ++ skipWs r0) := by
                  simp only [skipWs, List.takeWhile_append_dropWhile]
            _ = '[' :: (r0.takeWhile isJsonWs ++ q) ++ rr := by
                  rw [hq]
                  simp
          · intro d hd
            simp at hd
            subst hd
            decide
          · intro d hd
            rw [show ('[' :: (r0.takeWhile isJsonWs ++ q)) =
                ('[' :: r0.takeWhile isJsonWs) ++ q by simp,
              getLast?_append_right hqne, hql] at hd
            simp at hd
            subst hd
            decide
        · subst hc4
          obtain ⟨rr, hp, heq⟩ := Option.map_eq_some'.1 h
          cases heq
          have hq := expectChars_eq hp
          refine ⟨['t', 'r', 'u', 'e'], by simp [hq], by simp, ?_, ?_⟩
          · intro d hd
            simp at hd
            subst hd
            decide
          · intro d hd
            simp at hd
            subst hd
            decide
        · subst hc5
          obtain ⟨rr, hp, heq⟩ := Option.map_eq_some'.1 h
          cases heq
          have hq := expectChars_eq hp
          refine ⟨['f', 'a', 'l', 's', 'e'], by simp [hq], by simp, ?_, ?_⟩
          · intro d hd
            simp at hd
            subst hd
            decide
          · intro d hd
            simp at hd
            subst hd
            decide
        · subst hc6
          obtain ⟨rr, hp, heq⟩ := Option.map_eq_some'.1 h
          cases heq
          have hq := expectChars_eq hp
          refine ⟨['n', 'u', 'l', 'l'], by simp [hq], by simp, ?_, ?_⟩
          · intro d hd
            simp at hd
            subst hd
            decide
          · intro d hd
            simp at hd
            subst hd
            decide
        · obtain ⟨q, hq, hqne, hh, hl, _⟩ := parseNum_shape h
          exact ⟨q, hq, hqne, hh, hl⟩
    · -- parseArrTail
      intro s vs r h
      cases s with
      | nil => simp [parseArrTail] at h
      | cons c r0 =>
        simp only [parseArrTail] at h
        split_ifs at h with hc1
        · subst hc1
          simp only [Option.some.injEq, Prod.mk.injEq] at h
          obtain ⟨hvs, hr⟩ := h
          subst hr
          exact ⟨[']'], by simp, by simp, by simp⟩
        · match hv : parseValue n (c :: r0) with
          | none => rw [hv] at h; simp at h
          | some (v1, r1) =>
            rw [hv] at h
            simp only [Option.map_eq_some'] at h
            obtain ⟨⟨vs1, rr⟩, hsep, heq⟩ := h
            cases heq
            obtain ⟨p1, hp1, hp1ne, _, _⟩ := ihV _ _ _ hv
            obtain ⟨p2, hp2, hp2ne, hp2l⟩ := ihAS _ _ _ hsep
            refine ⟨p1 ++ p2, ?_, by simp [hp1ne], ?_⟩
            · rw [hp1, hp2]
              simp
            · rw [getLast?_append_right hp2ne]
              exact hp2l
    · -- parseArrSep
      intro s vs r h
      match hw : skipWs s with
      | [] => simp [parseArrSep, hw] at h
      | c1 :: r1 =>
        simp only [parseArrSep, hw] at h
        split_ifs at h with hc1 hc2
        · subst hc1
          simp only [Option.some.injEq, Prod.mk.injEq] at h
          obtain ⟨hvs, hr⟩ := h
          subst hr
          refine ⟨s.takeWhile isJsonWs ++ [']'], ?_, by simp, ?_⟩
          · conv_lhs => rw [← List.takeWhile_append_dropWhile isJsonWs s]
            rw [show List.dropWhile isJsonWs s = ']' :: r1 from hw]
            simp
          · rw [getLast?_append_right (by simp)]
            simp
        · subst hc2
          match hv : parseValue n (skipWs r1) with
          | none => rw [hv] at h; simp at h
          | some (v1, r2) =>
            rw [hv] at h
            simp only [Option.map_eq_some'] at h
            obtain ⟨⟨vs1, rr⟩, hsep, heq⟩ := h
            cases heq
            obtain ⟨p1, hp1, hp1ne, _, _⟩ := ihV _ _ _ hv
            obtain ⟨p2, hp2, hp2ne, hp2l⟩ := ihAS _ _ _ hsep
            refine ⟨s.takeWhile isJsonWs ++ ',' :: (r1.takeWhile isJsonWs ++ p1 ++ p2),
              ?_, by simp, ?_⟩
            · have hs1 : s = s.takeWhile isJsonWs ++ (',' :: r1) := by
                conv_lhs => rw [← List.takeWhile_append_dropWhile isJsonWs s]
                rw [show List.dropWhile isJsonWs s = ',' :: r1 from hw]
              have hr1 : r1 = r1.takeWhile isJsonWs ++ (p1 ++ (p2 ++ rr)) := by
                conv_lhs => rw [← List.takeWhile_append_dropWhile isJsonWs r1]
                rw [show List.dropWhile isJsonWs r1 = p1 ++ r2 from hp1, hp2]
              conv_lhs => rw [hs1, hr1]
              simp
            · rw [getLast?_append_right (by simp)]
              rw [show (',' :: (r1.takeWhile isJsonWs ++ p1 ++ p2)) =
                  (',' :: (r1.takeWhile isJsonWs ++ p1)) ++ p2 by simp,
                getLast?_append_right hp2ne]
              exact hp2l
    · -- parseObjTail
      intro s ms r h
      cases s with
      | nil => simp [parseObjTail] at h
      | cons c r0 =>
        simp only [parseObjTail] at h
        split_ifs at h with hc1 hc2
        · subst hc1
          simp only [Option.some.injEq, Prod.mk.injEq] at h
          obtain ⟨hms, hr⟩ := h
          subst hr
          exact ⟨[rbraceC], by simp, by simp, by simp⟩
        · subst hc2
          obtain ⟨pm, hpm, hpmne, hpml⟩ := ihM _ _ _ h
          refine ⟨'"' :: pm, by simp [hpm], by simp, ?_⟩
          rw [show ('"' :: pm) = ['"'] ++ pm by simp, getLast?_append_right hpmne]
          exact hpml
    · -- parseMember
      intro s ms r h
      match hstr : parseStr s with
      | none => simp [parseMember, hstr] at h
      | some (kcs, r1) =>
        simp only [parseMember, hstr] at h
        obtain ⟨qk, hqk⟩ := parseStr_shape s kcs r1 hstr
        match hcol : skipWs r1 with
        | [] => simp [hcol] at h
        | c2 :: r2 =>
          simp only [hcol] at h
          split_ifs at h with hc2
          · subst hc2
            match hv : parseValue n (skipWs r2) with
            | none => rw [hv] at h; simp at h
            | some (v1, r3) =>
              rw [hv] at h
              simp only [Option.map_eq_some'] at h
              obtain ⟨⟨ms1, rr⟩, hsep, heq⟩ := h
              cases heq
              obtain ⟨p1, hp1, hp1ne, _, _⟩ := ihV _ _ _ hv
              obtain ⟨p2, hp2, hp2ne, hp2l⟩ := ihOS _ _ _ hsep
              refine ⟨qk ++ '"' :: (r1.takeWhile isJsonWs ++
                ':' :: (r2.takeWhile isJsonWs ++ p1 ++ p2)), ?_, by simp, ?_⟩
              · have hr1 : r1 = r1.takeWhile isJsonWs ++
                    (':' :: r2) := by
                  conv_lhs => rw [← List.takeWhile_append_dropWhile isJsonWs r1]
                  rw [show List.dropWhile isJsonWs r1 = ':' :: r2 from hcol]
                have hr2 : r2 = r2.takeWhile isJsonWs ++ (p1 ++ (p2 ++ rr)) := by
                  conv_lhs => rw [← List.takeWhile_append_dropWhile isJsonWs r2]
                  rw [show List.dropWhile isJsonWs r2 = p1 ++ r3 from hp1, hp2]
                conv_lhs => rw [hqk, hr1, hr2]
                simp
              · rw [show (qk ++ '"' :: (r1.takeWhile isJsonWs ++
                    ':' :: (r2.takeWhile isJsonWs ++ p1 ++ p2))) =
                    (qk ++ '"' :: (r1.takeWhile isJsonWs ++
                      ':' :: (r2.takeWhile isJsonWs ++ p1))) ++ p2 by simp,
                  getLast?_append_right hp2ne]
                exact hp2l
    · -- parseObjSep
      intro s ms r h
      match hw : skipWs s with
      | [] => simp [parseObjSep, hw] at h
      | c1 :: r1 =>
        simp only [parseObjSep, hw] at h
        split_ifs at h with hc1 hc2
        · subst hc1
          simp only [Option.some.injEq, Prod.mk.injEq] at h
          obtain ⟨hms, hr⟩ := h
          subst hr
          refine ⟨s.takeWhile isJsonWs ++ [rbraceC], ?_, by simp, ?_⟩
          · conv_lhs => rw [← List.takeWhile_append_dropWhile isJsonWs s]
            rw [show List.dropWhile isJsonWs s = rbraceC :: r1 from hw]
            simp
          · rw [getLast?_append_right (by simp)]
            simp
        · subst hc2
          match hw2 : skipWs r1 with
          | [] => simp [hw2] at h
          | c2 :: r2 =>
            simp only [hw2] at h
            split_ifs at h with hq2
            · subst hq2
              obtain ⟨pm, hpm, hpmne, hpml⟩ := ihM _ _ _ h
              refine ⟨s.takeWhile isJsonWs ++
                ',' :: (r1.takeWhile isJsonWs ++ '"' :: pm), ?_, by simp, ?_⟩
              · have hs1 : s = s.takeWhile isJsonWs ++ (',' :: r1) := by
                  conv_lhs => rw [← List.takeWhile_append_dropWhile isJsonWs s]
                  rw [show List.dropWhile isJsonWs s = ',' :: r1 from hw]
                have hr1 : r1 = r1.takeWhile isJsonWs ++ ('"' :: (pm ++ r)) := by
                  conv_lhs => rw [← List.takeWhile_append_dropWhile isJsonWs r1]
                  rw [show List.dropWhile isJsonWs r1 = '"' :: r2 from hw2, hpm]
                conv_lhs => rw [hs1, hr1]
                simp
              · rw [getLast?_append_right (by simp)]
                rw [show (',' :: (r1.takeWhile isJsonWs ++ '"' :: pm)) =
                    (',' :: (r1.takeWhile isJsonWs ++ ['"'])) ++ pm by simp,
                  getLast?_append_right hpmne]
                exact hpml

theorem not_jsonWs_of_not_pySpace {c : Char} (h : isPySpace c = false) : isJsonWs c = false := by
  cases hc : isJsonWs c
  · rfl
  · rw [jsonWs_pySpace hc] at h
    exact absurd h (by simp)

theorem skipWs_ws_append {w x : List Char} (hw : ∀ c ∈ w, isJsonWs c = true)
    (hx : headNonWs x) (hxne : x ≠ []) : skipWs (w ++ x) = x := by
  have h1 : skipWs (w ++ x) = skipWs x := dropWhile_append_all hw
  rw [h1]
  cases x with
  | nil => rfl
  | cons d x1 =>
    have hd : isJsonWs d = false := not_jsonWs_of_not_pySpace (hx d rfl)
    exact dropWhile_cons_of_neg (by simp [hd])

theorem skipWs_consumed_split {p1 r q : List Char}
    (hsp : skipWs (p1 ++ r) = q ++ r) (hqne : q ≠ []) :
    skipWs p1 ≠ [] ∧ skipWs (p1 ++ r) = skipWs p1 ++ r ∧ skipWs p1 = q := by
  by_cases hps : skipWs p1 = []
  · have hall := skipWs_eq_nil_all hps
    have h2 : skipWs (p1 ++ r) = skipWs r := dropWhile_append_all hall
    rw [h2] at hsp
    have hlen := congrArg List.length hsp
    have hle := dropWhile_length_le isJsonWs r
    simp only [List.length_append] at hlen
    have hq0 : q.length = 0 := by
      have : (skipWs r).length ≤ r.length := hle
      omega
    exact absurd (List.eq_nil_of_length_eq_zero hq0) hqne
  · have h2 : skipWs (p1 ++ r) = skipWs p1 ++ r := dropWhile_append_of_ne_nil hps
    rw [h2] at hsp
    exact ⟨hps, h2, append_right_cancel_eq hsp⟩

theorem parseArrSep_head_nondigit (n : Nat) (s : List Char) (res : List Json × List Char)
    (h : parseArrSep n s = some res) :
    ∀ d, s.head? = some d → isDigitCh d = false := by
  intro d hd
  cases n with
  | zero => simp [parseArrSep] at h
  | succ n =>
    cases s with
    | nil => simp at hd
    | cons a s1 =>
      simp only [List.head?_cons, Option.some.injEq] at hd
      subst hd
      cases hdig : isDigitCh a
      · rfl
      · have hnw : isJsonWs a = false := not_jsonWs_of_not_pySpace (digit_not_pySpace hdig)
        have hsw : skipWs (a :: s1) = a :: s1 := dropWhile_cons_of_neg (by simp [hnw])
        simp only [parseArrSep, hsw] at h
        split_ifs at h with hc1 hc2
        · subst hc1
          exact absurd hdig (by simp; decide)
        · subst hc2
          exact absurd hdig (by simp; decide)

theorem parseObjSep_head_nondigit (n : Nat) (s : List Char) (res : List (String × Json) × List Char)
    (h : parseObjSep n s = some res) :
    ∀ d, s.head? = some d → isDigitCh d = false := by
  intro d hd
  cases n with
  | zero => simp [parseObjSep] at h
  | succ n =>
    cases s with
    | nil => simp at hd
    | cons a s1 =>
      simp only [List.head?_cons, Option.some.injEq] at hd
      subst hd
      cases hdig : isDigitCh a
      · rfl
      · have hnw : isJsonWs a = false := not_jsonWs_of_not_pySpace (digit_not_pySpace hdig)
        have hsw : skipWs (a :: s1) = a :: s1 := dropWhile_cons_of_neg (by simp [hnw])
        simp only [parseObjSep, hsw] at h
        split_ifs at h with hc1 hc2
        · subst hc1
          exact absurd hdig (by simp; decide)
        · subst hc2
          exact absurd hdig (by simp; decide)

theorem headNonWs_append {x y : List Char} (hx : headNonWs x) (hxne : x ≠ []) :
    headNonWs (x ++ y) := by
  intro d hd
  cases x with
  | nil => exact absurd rfl hxne
  | cons a x1 =>
    simp only [List.cons_append, List.head?_cons, Option.some.injEq] at hd
    subst hd
    exact hx a rfl

theorem parseFam_pd (n : Nat) :
    (∀ p r r2 v, parseValue n (p ++ r) = some (v, r) →
      (∀ d, r2.head? = some d → isDigitCh d = false) →
      parseValue n (p ++ r2) = some (v, r2)) ∧
    (∀ p r r2 vs, parseArrTail n (p ++ r) = some (vs, r) →
      (∀ d, r2.head? = some d → isDigitCh d = false) →
      parseArrTail n (p ++ r2) = some (vs, r2)) ∧
    (∀ p r r2 vs, parseArrSep n (p ++ r) = some (vs, r) →
      (∀ d, r2.head? = some d → isDigitCh d = false) →
      parseArrSep n (p ++ r2) = some (vs, r2)) ∧
    (∀ p r r2 ms, parseObjTail n (p ++ r) = some (ms, r) →
      (∀ d, r2.head? = some d → isDigitCh d = false) →
      parseObjTail n (p ++ r2) = some (ms, r2)) ∧
    (∀ p r r2 ms, parseMember n (p ++ r) = some (ms, r) →
      (∀ d, r2.head? = some d → isDigitCh d = false) →
      parseMember n (p ++ r2) = some (ms, r2)) ∧
    (∀ p r r2 ms, parseObjSep n (p ++ r) = some (ms, r) →
      (∀ d, r2.head? = some d → isDigitCh d = false) →
      parseObjSep n (p ++ r2) = some (ms, r2)) := by
  induction n with
  | zero =>
    refine ⟨?_, ?_, ?_, ?_, ?_, ?_⟩ <;> intro p r r2 a h hbnd <;> simp [parseValue,
      parseArrTail, parseArrSep, parseObjTail, parseMember, parseObjSep] at h
  | succ n ih =>
    obtain ⟨ihV, ihAT, ihAS, ihOT, ihM, ihOS⟩ := ih
    refine ⟨?_, ?_, ?_, ?_, ?_, ?_⟩
    · -- parseValue
      intro p r r2 v h hbnd
      obtain ⟨p2, hp2, hpne, _, _⟩ := (parseFam_shape (n + 1)).1 _ _ _ h
      have hpp : p = p2 := append_right_cancel_eq hp2
      subst hpp
      obtain ⟨c, p1, rfl⟩ : ∃ c p1, p = c :: p1 := by
        cases p with
        | nil => exact absurd rfl hpne
        | cons c p1 => exact ⟨c, p1, rfl⟩
      simp only [List.cons_append, parseValue] at h
      split_ifs at h with hc1 hc2 hc3 hc4 hc5 hc6
      · subst hc1
        obtain ⟨⟨cs, rr⟩, hp, heq⟩ := Option.map_eq_some'.1 h
        cases heq
        have hpd := parseStr_pd (p1 ++ rr) cs rr p1 r2 hp rfl
        simp [parseValue, hpd]
      · subst hc2
        obtain ⟨⟨ms, rr⟩, hp, heq⟩ := Option.map_eq_some'.1 h
        cases heq
        obtain ⟨q, hsp, hqne, _⟩ := (parseFam_shape n).2.2.2.1 _ _ _ hp
        obtain ⟨hps, hsw, hq⟩ := skipWs_consumed_split hsp hqne
        rw [hsw] at hp
        have hih := ihOT (skipWs p1) rr r2 ms hp hbnd
        have hsw2 : skipWs (p1 ++ r2) = skipWs p1 ++ r2 := dropWhile_append_of_ne_nil hps
        simp [parseValue, hsw2, hih, hc1]
      · subst hc3
        obtain ⟨⟨vs, rr⟩, hp, heq⟩ := Option.map_eq_some'.1 h
        cases heq
        obtain ⟨q, hsp, hqne, _⟩ := (parseFam_shape n).2.1 _ _ _ hp
        obtain ⟨hps, hsw, hq⟩ := skipWs_consumed_split hsp hqne
        rw [hsw] at hp
        have hih := ihAT (skipWs p1) rr r2 vs hp hbnd
        have hsw2 : skipWs (p1 ++ r2) = skipWs p1 ++ r2 := dropWhile_append_of_ne_nil hps
        simp [parseValue, hsw2, hih, hc1, hc2]
      · subst hc4
        obtain ⟨rr, hp, heq⟩ := Option.map_eq_some'.1 h
        cases heq
        have hq := expectChars_eq hp
        have hp1 : p1 = ['r', 'u', 'e'] := append_right_cancel_eq hq
        subst hp1
        simp [parseValue, expectChars, hc1, hc2, hc3]
      · subst hc5
        obtain ⟨rr, hp, heq⟩ := Option.map_eq_some'.1 h
        cases heq
        have hq := expectChars_eq hp
        have hp1 : p1 = ['a', 'l', 's', 'e'] := append_right_cancel_eq hq
        subst hp1
        simp [parseValue, expectChars, hc1, hc2, hc3, hc4]
      · subst hc6
        obtain ⟨rr, hp, heq⟩ := Option.map_eq_some'.1 h
        cases heq
        have hq := expectChars_eq hp
        have hp1 : p1 = ['u', 'l', 'l'] := append_right_cancel_eq hq
        subst hp1
        simp [parseValue, expectChars, hc1, hc2, hc3, hc4, hc5]
      · have hpd := parseNum_pd h (show c :: (p1 ++ r) = (c :: p1) ++ r by simp) hbnd
        simp only [List.cons_append, parseValue, if_neg hc1, if_neg hc2, if_neg hc3,
          if_neg hc4, if_neg hc5, if_neg hc6]
        simpa using hpd
    · -- parseArrTail
      intro p r r2 vs h hbnd
      obtain ⟨p2, hp2, hpne, _⟩ := (parseFam_shape (n + 1)).2.1 _ _ _ h
      have hpp : p = p2 := append_right_cancel_eq hp2
      subst hpp
      obtain ⟨c, p1, rfl⟩ : ∃ c p1, p = c :: p1 := by
        cases p with
        | nil => exact absurd rfl hpne
        | cons c p1 => exact ⟨c, p1, rfl⟩
      simp only [List.cons_append, parseArrTail] at h
      split_ifs at h with hc1
      · subst hc1
        simp only [Option.some.injEq, Prod.mk.injEq] at h
        obtain ⟨hvs, hr⟩ := h
        subst hvs
        have hp1 : p1 = [] := by
          have hlen := congrArg List.length hr
          simp only [List.length_append] at hlen
          exact List.eq_nil_of_length_eq_zero (by omega)
        subst hp1
        simp [parseArrTail]
      · match hv : parseValue n (c :: (p1 ++ r)) with
        | none => rw [hv] at h; simp at h
        | some (v1, r1) =>
          rw [hv] at h
          simp only [Option.map_eq_some'] at h
          obtain ⟨⟨vs1, rr⟩, hsep, heq⟩ := h
          cases heq
          obtain ⟨pv, hpv, hpvne, _, _⟩ := (parseFam_shape n).1 _ _ _ hv
          obtain ⟨ps, hps, hpsne, hpsl⟩ := (parseFam_shape n).2.2.1 _ _ _ hsep
          have hcp : c :: p1 = pv ++ ps := by
            have h2 : (c :: p1) ++ rr = (pv ++ ps) ++ rr := by
              calc (c :: p1) ++ rr = c :: (p1 ++ rr) := by simp
              _ = pv ++ r1 := hpv
              _ = pv ++ (ps ++ rr) := by rw [hps]
              _ = (pv ++ ps) ++ rr := by simp
            exact append_right_cancel_eq h2
          have hhead : ∀ d, (ps ++ r2).head? = some d → isDigitCh d = false := by
            intro d hd
            cases ps with
            | nil => exact absurd rfl hpsne
            | cons a ps1 =>
              simp only [List.cons_append, List.head?_cons, Option.some.injEq] at hd
              subst hd
              exact parseArrSep_head_nondigit n r1 _ hsep a (by rw [hps]; simp)
          have hv2 : parseValue n (pv ++ r1) = some (v1, r1) := by
            rw [← hpv]
            exact hv
          have hih1 := ihV pv r1 (ps ++ r2) v1 hv2 hhead
          have hsep2 : parseArrSep n (ps ++ rr) = some (vs1, rr) := by
            rw [← hps]
            exact hsep
          have hih2 := ihAS ps rr r2 vs1 hsep2 hbnd
          have hscrut : parseValue n (c :: (p1 ++ r2)) = some (v1, ps ++ r2) := by
            have hceq : c :: (p1 ++ r2) = pv ++ (ps ++ r2) := by
              calc c :: (p1 ++ r2) = (c :: p1) ++ r2 := by simp
              _ = (pv ++ ps) ++ r2 := by rw [hcp]
              _ = pv ++ (ps ++ r2) := by simp
            rw [hceq]
            exact hih1
          simp only [List.cons_append, parseArrTail, if_neg hc1, hscrut]
          simp [hih2]
    · -- parseArrSep
      intro p r r2 vs h hbnd
      match hw : skipWs (p ++ r) with
      | [] => simp [parseArrSep, hw] at h
      | c1 :: r1 =>
        simp only [parseArrSep, hw] at h
        split_ifs at h with hc1 hc2
        · subst hc1
          simp only [Option.some.injEq, Prod.mk.injEq] at h
          obtain ⟨hvs, hr⟩ := h
          subst hvs
          subst hr
          have hw1 : skipWs (p ++ r1) = [']'] ++ r1 := by simpa using hw
          obtain ⟨hps, hsw, hq⟩ := skipWs_consumed_split hw1 (by simp)
          have hsw2 : skipWs (p ++ r2) = skipWs p ++ r2 := dropWhile_append_of_ne_nil hps
          rw [hq] at hsw2
          simp [parseArrSep, hsw2]
        · subst hc2
          match hv : parseValue n (skipWs r1) with
          | none => rw [hv] at h; simp at h
          | some (v1, r3) =>
            rw [hv] at h
            simp only [Option.map_eq_some'] at h
            obtain ⟨⟨vs1, rr⟩, hsep, heq⟩ := h
            cases heq
            obtain ⟨pv, hpv, hpvne, hpvh, _⟩ := (parseFam_shape n).1 _ _ _ hv
            obtain ⟨ps, hps, hpsne, hpsl⟩ := (parseFam_shape n).2.2.1 _ _ _ hsep
            have hr1 : r1 = r1.takeWhile isJsonWs ++ (pv ++ (ps ++ rr)) := by
              conv_lhs => rw [← List.takeWhile_append_dropWhile isJsonWs r1]
              rw [show List.dropWhile isJsonWs r1 = pv ++ r3 from hpv, hps]
            have hsp : skipWs (p ++ rr) =
                (',' :: (r1.takeWhile isJsonWs ++ pv ++ ps)) ++ rr := by
              rw [hw]
              conv_lhs => rw [hr1]
              simp
            obtain ⟨hps0, hsw, hq⟩ := skipWs_consumed_split hsp (by simp)
            have hv2 : parseValue n (pv ++ r3) = some (v1, r3) := by
              rw [← hpv]
              exact hv
            have hhead : ∀ d, (ps ++ r2).head? = some d → isDigitCh d = false := by
              intro d hd
              cases ps with
              | nil => exact absurd rfl hpsne
              | cons a ps1 =>
                simp only [List.cons_append, List.head?_cons, Option.some.injEq] at hd
                subst hd
                exact parseArrSep_head_nondigit n r3 _ hsep a (by rw [hps]; simp)
            have hih1 := ihV pv r3 (ps ++ r2) v1 hv2 hhead
            have hsep2 : parseArrSep n (ps ++ rr) = some (vs1, rr) := by
              rw [← hps]
              exact hsep
            have hih2 := ihAS ps rr r2 vs1 hsep2 hbnd
            have hsw2 : skipWs (p ++ r2) =
                ',' :: ((r1.takeWhile isJsonWs ++ pv ++ ps) ++ r2) := by
              calc skipWs (p ++ r2) = skipWs p ++ r2 := dropWhile_append_of_ne_nil hps0
              _ = ',' :: ((r1.takeWhile isJsonWs ++ pv ++ ps) ++ r2) := by rw [hq]; simp
            have hswi : skipWs (r1.takeWhile isJsonWs ++ (pv ++ (ps ++ r2))) =
                pv ++ (ps ++ r2) :=
              skipWs_ws_append (takeWhile_ws_all r1)
                (headNonWs_append hpvh hpvne) (by simp [hpvne])
            have hscrut : parseValue n (skipWs (r1.takeWhile isJsonWs ++ (pv ++ (ps ++ r2)))) =
                some (v1, ps ++ r2) := by
              rw [hswi]
              exact hih1
            simp [parseArrSep, hsw2, hscrut, hih2]
    · -- parseObjTail
      intro p r r2 ms h hbnd
      obtain ⟨p2, hp2, hpne, _⟩ := (parseFam_shape (n + 1)).2.2.2.1 _ _ _ h
      have hpp : p = p2 := append_right_cancel_eq hp2
      subst hpp
      obtain ⟨c, p1, rfl⟩ : ∃ c p1, p = c :: p1 := by
        cases p with
        | nil => exact absurd rfl hpne
        | cons c p1 => exact ⟨c, p1, rfl⟩
      simp only [List.cons_append, parseObjTail] at h
      split_ifs at h with hc1 hc2
      · subst hc1
        simp only [Option.some.injEq, Prod.mk.injEq] at h
        obtain ⟨hms, hr⟩ := h
        subst hms
        have hp1 : p1 = [] := by
          have hlen := congrArg List.length hr
          simp only [List.length_append] at hlen
          exact List.eq_nil_of_length_eq_zero (by omega)
        subst hp1
        simp [parseObjTail]
      · subst hc2
        have hih := ihM p1 r r2 ms h hbnd
        simp [parseObjTail, hih, hc1]
    · -- parseMember
      intro p r r2 ms h hbnd
      match hstr : parseStr (p ++ r) with
      | none => simp [parseMember, hstr] at h
      | some (kcs, r1) =>
        simp only [parseMember, hstr] at h
        match hcol : skipWs r1 with
        | [] => simp [hcol] at h
        | c2 :: r2x =>
          simp only [hcol] at h
          split_ifs at h with hc2
          · subst hc2
            match hv : parseValue n (skipWs r2x) with
            | none => rw [hv] at h; simp at h
            | some (v1, r3) =>
              rw [hv] at h
              simp only [Option.map_eq_some'] at h
              obtain ⟨⟨ms1, rr⟩, hsep, heq⟩ := h
              cases heq
              obtain ⟨qk, hqk⟩ := parseStr_shape _ _ _ hstr
              obtain ⟨pv, hpv, hpvne, hpvh, _⟩ := (parseFam_shape n).1 _ _ _ hv
              obtain ⟨ps, hps, hpsne, hpsl⟩ := (parseFam_shape n).2.2.2.2.2 _ _ _ hsep
              have hr2x : r2x = r2x.takeWhile isJsonWs ++ (pv ++ (ps ++ rr)) := by
                conv_lhs => rw [← List.takeWhile_append_dropWhile isJsonWs r2x]
                rw [show List.dropWhile isJsonWs r2x = pv ++ r3 from hpv, hps]
              have hr1 : r1 = r1.takeWhile isJsonWs ++ (':' :: r2x) := by
                conv_lhs => rw [← List.takeWhile_append_dropWhile isJsonWs r1]
                rw [show List.dropWhile isJsonWs r1 = ':' :: r2x from hcol]
              have hpK : p = (qk ++ ['"']) ++ (r1.takeWhile isJsonWs ++
                  ':' :: (r2x.takeWhile isJsonWs ++ (pv ++ ps))) := by
                have h2 : p ++ rr = ((qk ++ ['"']) ++ (r1.takeWhile isJsonWs ++
                    ':' :: (r2x.takeWhile isJsonWs ++ (pv ++ ps)))) ++ rr := by
                  rw [hqk]
                  conv_lhs => rw [hr1, hr2x]
                  simp
                exact append_right_cancel_eq h2
              have hv2 : parseValue n (pv ++ r3) = some (v1, r3) := by
                rw [← hpv]
                exact hv
              have hhead : ∀ d, (ps ++ r2).head? = some d → isDigitCh d = false := by
                intro d hd
                cases ps with
                | nil => exact absurd rfl hpsne
                | cons a ps1 =>
                  simp only [List.cons_append, List.head?_cons, Option.some.injEq] at hd
                  subst hd
                  exact parseObjSep_head_nondigit n r3 _ hsep a (by rw [hps]; simp)
              have hih1 := ihV pv r3 (ps ++ r2) v1 hv2 hhead
              have hsep2 : parseObjSep n (ps ++ rr) = some (ms1, rr) := by
                rw [← hps]
                exact hsep
              have hih2 := ihOS ps rr r2 ms1 hsep2 hbnd
              have hqtail : p ++ rr = (qk ++ ['"']) ++ r1 := by
                rw [hqk]
                simp
              have hstr2 := parseStr_pd (p ++ rr) kcs r1 (qk ++ ['"'])
                (r1.takeWhile isJsonWs ++ ':' :: (r2x.takeWhile isJsonWs ++ (pv ++ (ps ++ r2))))
                hstr hqtail
              have hstr3 : parseStr (qk ++ '"' :: (r1.takeWhile isJsonWs ++
                  ':' :: (r2x.takeWhile isJsonWs ++ (pv ++ (ps ++ r2))))) =
                  some (kcs, r1.takeWhile isJsonWs ++
                    ':' :: (r2x.takeWhile isJsonWs ++ (pv ++ (ps ++ r2)))) := by
                simpa using hstr2
              have hpr2 : p ++ r2 = qk ++ '"' :: (r1.takeWhile isJsonWs ++
                  ':' :: (r2x.takeWhile isJsonWs ++ (pv ++ (ps ++ r2)))) := by
                conv_lhs => rw [hpK]
                simp
              have hswNT : skipWs (r1.takeWhile isJsonWs ++
                  ':' :: (r2x.takeWhile isJsonWs ++ (pv ++ (ps ++ r2)))) =
                  ':' :: (r2x.takeWhile isJsonWs ++ (pv ++ (ps ++ r2))) := by
                exact skipWs_ws_append (takeWhile_ws_all r1)
                  (by intro d hd; simp at hd; subst hd; decide) (by simp)
              have hswR2 : skipWs (r2x.takeWhile isJsonWs ++ (pv ++ (ps ++ r2))) =
                  pv ++ (ps ++ r2) :=
                skipWs_ws_append (takeWhile_ws_all r2x)
                  (headNonWs_append hpvh hpvne) (by simp [hpvne])
              have hscrut : parseValue n (skipWs (r2x.takeWhile isJsonWs ++ (pv ++ (ps ++ r2)))) =
                  some (v1, ps ++ r2) := by
                rw [hswR2]
                exact hih1
              rw [hpr2]
              simp [parseMember, hstr3, hswNT, hscrut, hih2]
    · -- parseObjSep
      intro p r r2 ms h hbnd
      match hw : skipWs (p ++ r) with
      | [] => simp [parseObjSep, hw] at h
      | c1 :: r1 =>
        simp only [parseObjSep, hw] at h
        split_ifs at h with hc1 hc2
        · subst hc1
          simp only [Option.some.injEq, Prod.mk.injEq] at h
          obtain ⟨hms, hr⟩ := h
          subst hms
          subst hr
          have hw1 : skipWs (p ++ r1) = [rbraceC] ++ r1 := by simpa using hw
          obtain ⟨hps, hsw, hq⟩ := skipWs_consumed_split hw1 (by simp)
          have hsw2 : skipWs (p ++ r2) = skipWs p ++ r2 := dropWhile_append_of_ne_nil hps
          rw [hq] at hsw2
          simp [parseObjSep, hsw2]
        · subst hc2
          match hw2 : skipWs r1 with
          | [] => simp [hw2] at h
          | c2 :: r2x =>
            simp only [hw2] at h
            split_ifs at h with hq2
            · subst hq2
              obtain ⟨pm, hpm, hpmne, hpml⟩ := (parseFam_shape n).2.2.2.2.1 _ _ _ h
              have hr1 : r1 = r1.takeWhile isJsonWs ++ ('"' :: (pm ++ r)) := by
                conv_lhs => rw [← List.takeWhile_append_dropWhile isJsonWs r1]
                rw [show List.dropWhile isJsonWs r1 = '"' :: r2x from hw2, hpm]
              have hsp : skipWs (p ++ r) =
                  (',' :: (r1.takeWhile isJsonWs ++ '"' :: pm)) ++ r := by
                rw [hw]
                conv_lhs => rw [hr1]
                simp
              obtain ⟨hps0, hsw, hq⟩ := skipWs_consumed_split hsp (by simp)
              have hm2 : parseMember n (pm ++ r) = some (ms, r) := by
                rw [← hpm]
                exact h
              have hih := ihM pm r r2 ms hm2 hbnd
              have hsw2 : skipWs (p ++ r2) =
                  ',' :: ((r1.takeWhile isJsonWs ++ '"' :: pm) ++ r2) := by
                calc skipWs (p ++ r2) = skipWs p ++ r2 := dropWhile_append_of_ne_nil hps0
                _ = ',' :: ((r1.takeWhile isJsonWs ++ '"' :: pm) ++ r2) := by rw [hq]; simp
              have hswi : skipWs (r1.takeWhile isJsonWs ++ ('"' :: (pm ++ r2))) =
                  '"' :: (pm ++ r2) :=
                skipWs_ws_append (takeWhile_ws_all r1)
                  (by intro d hd; simp at hd; subst hd; decide) (by simp)
              simp [parseObjSep, hsw2, hswi, hih, hc1]

theorem parseFam_fuel (n : Nat) :
    (∀ s v r, parseValue n s = some (v, r) →
      ∀ m, 2 * (s.length - r.length) ≤ m → parseValue m s = some (v, r)) ∧
    (∀ s vs r, parseArrTail n s = some (vs, r) →
      ∀ m, 2 * (s.length - r.length) + 1 ≤ m → parseArrTail m s = some (vs, r)) ∧
    (∀ s vs r, parseArrSep n s = some (vs, r) →
      ∀ m, 2 * (s.length - r.length) + 1 ≤ m → parseArrSep m s = some (vs, r)) ∧
    (∀ s ms r, parseObjTail n s = some (ms, r) →
      ∀ m, 2 * (s.length - r.length) + 1 ≤ m → parseObjTail m s = some (ms, r)) ∧
    (∀ s ms r, parseMember n s = some (ms, r) →
      ∀ m, 2 * (s.length - r.length) + 1 ≤ m → parseMember m s = some (ms, r)) ∧
    (∀ s ms r, parseObjSep n s = some (ms, r) →
      ∀ m, 2 * (s.length - r.length) + 1 ≤ m → parseObjSep m s = some (ms, r)) := by
  induction n with
  | zero =>
    refine ⟨?_, ?_, ?_, ?_, ?_, ?_⟩ <;> intro s a r h <;> simp [parseValue,
      parseArrTail, parseArrSep, parseObjTail, parseMember, parseObjSep] at h
  | succ n ih =>
    obtain ⟨ihV, ihAT, ihAS, ihOT, ihM, ihOS⟩ := ih
    refine ⟨?_, ?_, ?_, ?_, ?_, ?_⟩
    · -- parseValue
      intro s v r h m hm
      obtain ⟨p, hps, hpne, _, _⟩ := (parseFam_shape (n + 1)).1 _ _ _ h
      have hlen0 := congrArg List.length hps
      simp only [List.length_append] at hlen0
      have hpl : 1 ≤ p.length := by
        cases p with
        | nil => exact absurd rfl hpne
        | cons a b => simp
      cases m with
      | zero => omega
      | succ m' =>
        cases s with
        | nil => simp [parseValue] at h
        | cons c r0 =>
          simp only [parseValue] at h
          split_ifs at h with hc1 hc2 hc3 hc4 hc5 hc6
          · subst hc1
            simpa [parseValue] using h
          · subst hc2
            obtain ⟨⟨ms, rr⟩, hp, heq⟩ := Option.map_eq_some'.1 h
            cases heq
            obtain ⟨q, hsp, hqne, _⟩ := (parseFam_shape n).2.2.2.1 _ _ _ hp
            have hl1 := congrArg List.length hsp
            have hl2 : (skipWs r0).length ≤ r0.length := dropWhile_length_le isJsonWs r0
            simp only [List.length_append, List.length_cons] at hl1 hlen0 hm
            have hih := ihOT _ _ _ hp m' (by omega)
            simp [parseValue, hih, hc1]
          · subst hc3
            obtain ⟨⟨vs, rr⟩, hp, heq⟩ := Option.map_eq_some'.1 h
            cases heq
            obtain ⟨q, hsp, hqne, _⟩ := (parseFam_shape n).2.1 _ _ _ hp
            have hl1 := congrArg List.length hsp
            have hl2 : (skipWs r0).length ≤ r0.length := dropWhile_length_le isJsonWs r0
            simp only [List.length_append, List.length_cons] at hl1 hlen0 hm
            have hih := ihAT _ _ _ hp m' (by omega)
            simp [parseValue, hih, hc1, hc2]
          · subst hc4
            simpa [parseValue, hc1, hc2, hc3] using h
          · subst hc5
            simpa [parseValue, hc1, hc2, hc3, hc4] using h
          · subst hc6
            simpa [parseValue, hc1, hc2, hc3, hc4, hc5] using h
          · simp only [parseValue, if_neg hc1, if_neg hc2, if_neg hc3, if_neg hc4,
              if_neg hc5, if_neg hc6]
            exact h
    · -- parseArrTail
      intro s vs r h m hm
      cases m with
      | zero => omega
      | succ m' =>
        cases s with
        | nil => simp [parseArrTail] at h
        | cons c r0 =>
          simp only [parseArrTail] at h
          split_ifs at h with hc1
          · subst hc1
            simp only [Option.some.injEq, Prod.mk.injEq] at h
            obtain ⟨hvs, hr⟩ := h
            subst hvs
            subst hr
            simp [parseArrTail]
          · match hv : parseValue n (c :: r0) with
            | none => rw [hv] at h; simp at h
            | some (v1, r1) =>
              rw [hv] at h
              simp only [Option.map_eq_some'] at h
              obtain ⟨⟨vs1, rr⟩, hsep, heq⟩ := h
              cases heq
              obtain ⟨pv, hpv, hpvne, _, _⟩ := (parseFam_shape n).1 _ _ _ hv
              obtain ⟨ps, hps, hpsne, _⟩ := (parseFam_shape n).2.2.1 _ _ _ hsep
              have hl1 := congrArg List.length hpv
              have hl2 := congrArg List.length hps
              simp only [List.length_append, List.length_cons] at hl1 hl2 hm
              have hpvl : 1 ≤ pv.length := by
                cases pv with
                | nil => exact absurd rfl hpvne
                | cons a b => simp
              have hpsl : 1 ≤ ps.length := by
                cases ps with
                | nil => exact absurd rfl hpsne
                | cons a b => simp
              have hih1 := ihV _ _ _ hv m' (by simp only [List.length_cons]; omega)
              have hih2 := ihAS _ _ _ hsep m' (by omega)
              simp only [parseArrTail, if_neg hc1, hih1]
              simp [hih2]
    · -- parseArrSep
      intro s vs r h m hm
      cases m with
      | zero => omega
      | succ m' =>
        match hw : skipWs s with
        | [] => simp [parseArrSep, hw] at h
        | c1 :: r1 =>
          simp only [parseArrSep, hw] at h
          split_ifs at h with hc1 hc2
          · subst hc1
            simp only [Option.some.injEq, Prod.mk.injEq] at h
            obtain ⟨hvs, hr⟩ := h
            subst hvs
            subst hr
            simp [parseArrSep, hw]
          · subst hc2
            match hv : parseValue n (skipWs r1) with
            | none => rw [hv] at h; simp at h
            | some (v1, r3) =>
              rw [hv] at h
              simp only [Option.map_eq_some'] at h
              obtain ⟨⟨vs1, rr⟩, hsep, heq⟩ := h
              cases heq
              obtain ⟨pv, hpv, hpvne, _, _⟩ := (parseFam_shape n).1 _ _ _ hv
              obtain ⟨ps, hps, hpsne, _⟩ := (parseFam_shape n).2.2.1 _ _ _ hsep
              have hl1 := congrArg List.length hpv
              have hl2 := congrArg List.length hps
              have hl3 := congrArg List.length hw
              have hl4 : (skipWs s).length ≤ s.length := dropWhile_length_le isJsonWs s
              have hl5 : (skipWs r1).length ≤ r1.length := dropWhile_length_le isJsonWs r1
              simp only [List.length_append, List.length_cons] at hl1 hl2 hl3 hm
              have hpvl : 1 ≤ pv.length := by
                cases pv with
                | nil => exact absurd rfl hpvne
                | cons a b => simp
              have hpsl : 1 ≤ ps.length := by
                cases ps with
                | nil => exact absurd rfl hpsne
                | cons a b => simp
              have hih1 := ihV _ _ _ hv m' (by omega)
              have hih2 := ihAS _ _ _ hsep m' (by omega)
              simp [parseArrSep, hw, hih1, hih2]
    · -- parseObjTail
      intro s ms r h m hm
      cases m with
      | zero => omega
      | succ m' =>
        cases s with
        | nil => simp [parseObjTail] at h
        | cons c r0 =>
          simp only [parseObjTail] at h
          split_ifs at h with hc1 hc2
          · subst hc1
            simp only [Option.some.injEq, Prod.mk.injEq] at h
            obtain ⟨hms, hr⟩ := h
            subst hms
            subst hr
            simp [parseObjTail]
          · subst hc2
            obtain ⟨pm, hpm, hpmne, _⟩ := (parseFam_shape n).2.2.2.2.1 _ _ _ h
            have hl1 := congrArg List.length hpm
            simp only [List.length_append, List.length_cons] at hl1 hm
            have hpml : 1 ≤ pm.length := by
              cases pm with
              | nil => exact absurd rfl hpmne
              | cons a b => simp
            have hih := ihM _ _ _ h m' (by omega)
            simp [parseObjTail, hih, hc1]
    · -- parseMember
      intro s ms r h m hm
      cases m with
      | zero => omega
      | succ m' =>
        match hstr : parseStr s with
        | none => simp [parseMember, hstr] at h
        | some (kcs, r1) =>
          simp only [parseMember, hstr] at h
          match hcol : skipWs r1 with
          | [] => simp [hcol] at h
          | c2 :: r2x =>
            simp only [hcol] at h
            split_ifs at h with hc2
            · subst hc2
              match hv : parseValue n (skipWs r2x) with
              | none => rw [hv] at h; simp at h
              | some (v1, r3) =>
                rw [hv] at h
                simp only [Option.map_eq_some'] at h
                obtain ⟨⟨ms1, rr⟩, hsep, heq⟩ := h
                cases heq
                obtain ⟨qk, hqk⟩ := parseStr_shape _ _ _ hstr
                obtain ⟨pv, hpv, hpvne, _, _⟩ := (parseFam_shape n).1 _ _ _ hv
                obtain ⟨ps, hps, hpsne, _⟩ := (parseFam_shape n).2.2.2.2.2 _ _ _ hsep
                have hl0 := congrArg List.length hqk
                have hl1 := congrArg List.length hpv
                have hl2 := congrArg List.length hps
                have hl3 := congrArg List.length hcol
                have hl4 : (skipWs r1).length ≤ r1.length := dropWhile_length_le isJsonWs r1
                have hl5 : (skipWs r2x).length ≤ r2x.length :=
                  dropWhile_length_le isJsonWs r2x
                simp only [List.length_append, List.length_cons] at hl0 hl1 hl2 hl3 hm
                have hpvl : 1 ≤ pv.length := by
                  cases pv with
                  | nil => exact absurd rfl hpvne
                  | cons a b => simp
                have hpsl : 1 ≤ ps.length := by
                  cases ps with
                  | nil => exact absurd rfl hpsne
                  | cons a b => simp
                have hih1 := ihV _ _ _ hv m' (by omega)
                have hih2 := ihOS _ _ _ hsep m' (by omega)
                simp [parseMember, hstr, hcol, hih1, hih2]
    · -- parseObjSep
      intro s ms r h m hm
      cases m with
      | zero => omega
      | succ m' =>
        match hw : skipWs s with
        | [] => simp [parseObjSep, hw] at h
        | c1 :: r1 =>
          simp only [parseObjSep, hw] at h
          split_ifs at h with hc1 hc2
          · subst hc1
            simp only [Option.some.injEq, Prod.mk.injEq] at h
            obtain ⟨hms, hr⟩ := h
            subst hms
            subst hr
            simp [parseObjSep, hw]
          · subst hc2
            match hw2 : skipWs r1 with
            | [] => simp [hw2] at h
            | c2 :: r2x =>
              simp only [hw2] at h
              split_ifs at h with hq2
              · subst hq2
                obtain ⟨pm, hpm, hpmne, _⟩ := (parseFam_shape n).2.2.2.2.1 _ _ _ h
                have hl1 := congrArg List.length hpm
                have hl3 := congrArg List.length hw
                have hl3b := congrArg List.length hw2
                have hl4 : (skipWs s).length ≤ s.length := dropWhile_length_le isJsonWs s
                have hl5 : (skipWs r1).length ≤ r1.length :=
                  dropWhile_length_le isJsonWs r1
                simp only [List.length_append, List.length_cons] at hl1 hl3 hl3b hm
                have hpml : 1 ≤ pm.length := by
                  cases pm with
                  | nil => exact absurd rfl hpmne
                  | cons a b => simp
                have hih := ihM _ _ _ h m' (by omega)
                simp [parseObjSep, hw, hw2, hih, hc1]

theorem string_mk_data (s : String) : String.mk s.data = s := rfl

theorem char_not_surrogate (c : Char) : c.toNat < 55296 ∨ 57343 < c.toNat := by
  rcases c.valid with h | ⟨h1, _⟩
  · exact Or.inl h
  · exact Or.inr h1

theorem char_lt_max (c : Char) : c.toNat < 1114112 := by
  rcases c.valid with h | ⟨_, h2⟩
  · exact Nat.lt_trans h (by norm_num)
  · exact h2

theorem hexVal_hexDigitChar {d : Nat} (h : d < 16) : hexVal? (hexDigitChar d) = some d := by
  interval_cases d <;> rfl

theorem hex4_roundtrip {k : Nat} (h : k < 65536) :
    hex4? (hexDigitChar (k / 4096 % 16)) (hexDigitChar (k / 256 % 16))
      (hexDigitChar (k / 16 % 16)) (hexDigitChar (k % 16)) = some k := by
  have h1 := hexVal_hexDigitChar (show k / 4096 % 16 < 16 by omega)
  have h2 := hexVal_hexDigitChar (show k / 256 % 16 < 16 by omega)
  have h3 := hexVal_hexDigitChar (show k / 16 % 16 < 16 by omega)
  have h4 := hexVal_hexDigitChar (show k % 16 < 16 by omega)
  simp only [hex4?, h1, h2, h3, h4]
  congr 1
  omega

theorem parseStr_plain (c : Char) (t : List Char) (h1 : ¬c = '"') (h2 : ¬c = '\\')
    (h3 : 32 ≤ c.toNat) :
    parseStr (c :: t) = (parseStr t).map (fun p => (c :: p.1, p.2)) := by
  rw [parseStr.eq_def]
  split
  · rename_i heq
    exact absurd heq (by simp)
  · rename_i rest heq
    rw [List.cons_eq_cons] at heq
    exact absurd heq.1 h1
  · rename_i esc heq
    rw [List.cons_eq_cons] at heq
    exact absurd heq.1 h2
  · rename_i c2 rest hne1 hne2 heq
    rw [List.cons_eq_cons] at heq
    obtain ⟨hc, ht⟩ := heq
    subst hc
    subst ht
    rw [if_pos h3]

theorem parseNum_not_neg (c : Char) (t : List Char) (h : ¬c = '-') :
    parseNum (c :: t) = (parseNat (c :: t)).map (fun p => (Json.num (p.1 : Int), p.2)) := by
  rw [parseNum.eq_def]
  split
  · rename_i rest heq
    rw [List.cons_eq_cons] at heq
    exact absurd heq.1 h
  · rfl

theorem parseStr_enc (cs : List Char) (rest : List Char) :
    parseStr (cs.foldr (fun c acc => escChar c ++ acc) ['"'] ++ rest) = some (cs, rest) := by
  induction cs with
  | nil => simp [parseStr]
  | cons c cs ih =>
    simp only [List.foldr_cons, List.append_assoc]
    by_cases hq : c = '"'
    · subst hq
      rw [show escChar '"' = ['\\', '"'] from rfl]
      simp [parseStr, ih]
    · by_cases hbs : c = '\\'
      · subst hbs
        rw [show escChar '\\' = ['\\', '\\'] from rfl]
        simp [parseStr, ih]
      · by_cases hn : c = '\n'
        · subst hn
          rw [show escChar '\n' = ['\\', 'n'] from rfl]
          simp [parseStr, ih]
        · by_cases ht : c = '\t'
          · subst ht
            rw [show escChar '\t' = ['\\', 't'] from rfl]
            simp [parseStr, ih]
          · by_cases hr : c = '\r'
            · subst hr
              rw [show escChar '\r' = ['\\', 'r'] from rfl]
              simp [parseStr, ih]
            · by_cases hb : c = Char.ofNat 8
              · subst hb
                rw [show escChar (Char.ofNat 8) = ['\\', 'b'] from rfl]
                simp [parseStr, ih]
              · by_cases hf : c = Char.ofNat 12
                · subst hf
                  rw [show escChar (Char.ofNat 12) = ['\\', 'f'] from rfl]
                  simp [parseStr, ih]
                · by_cases h32 : c.toNat < 32
                  · have hlt : c.toNat < 65536 := by omega
                    have hesc : escChar c = '\\' :: 'u' :: hex4Chars c.toNat := by
                      simp only [escChar]
                      rw [if_neg hq, if_neg hbs, if_neg hn, if_neg ht, if_neg hr,
                        if_neg hb, if_neg hf, if_pos h32]
                    rw [hesc]
                    simp only [hex4Chars, List.cons_append, List.nil_append]
                    simp only [parseStr, hex4_roundtrip hlt]
                    rw [if_neg (by omega), if_neg (by omega), ih]
                    simp [Char.ofNat_toNat]
                  · by_cases h127 : c.toNat < 127
                    · have hesc : escChar c = [c] := by
                        simp only [escChar]
                        rw [if_neg hq, if_neg hbs, if_neg hn, if_neg ht, if_neg hr,
                          if_neg hb, if_neg hf, if_neg h32, if_pos h127]
                      rw [hesc]
                      simp only [List.cons_append, List.nil_append]
                      rw [parseStr_plain c _ hq hbs (by omega), ih]
                      rfl
                    · by_cases h65536 : c.toNat < 65536
                      · have hesc : escChar c = '\\' :: 'u' :: hex4Chars c.toNat := by
                          simp only [escChar]
                          rw [if_neg hq, if_neg hbs, if_neg hn, if_neg ht, if_neg hr,
                            if_neg hb, if_neg hf, if_neg h32, if_neg h127, if_pos h65536]
                        rw [hesc]
                        simp only [hex4Chars, List.cons_append, List.nil_append]
                        simp only [parseStr, hex4_roundtrip h65536]
                        rcases char_not_surrogate c with hs | hs
                        all_goals rw [if_neg (by omega), if_neg (by omega), ih]
                        all_goals simp [Char.ofNat_toNat]
                      · have hmax := char_lt_max c
                        have hk1 : 55296 + (c.toNat - 65536) / 1024 < 65536 := by omega
                        have hk2 : 56320 + (c.toNat - 65536) % 1024 < 65536 := by omega
                        have hesc : escChar c = '\\' :: 'u' :: (hex4Chars
                            (55296 + (c.toNat - 65536) / 1024) ++
                            ('\\' :: 'u' :: hex4Chars (56320 + (c.toNat - 65536) % 1024))) := by
                          simp only [escChar]
                          rw [if_neg hq, if_neg hbs, if_neg hn, if_neg ht, if_neg hr,
                            if_neg hb, if_neg hf, if_neg h32, if_neg h127, if_neg h65536]
                          simp
                        rw [hesc]
                        simp only [hex4Chars, List.cons_append, List.nil_append,
                          List.append_assoc]
                        simp only [parseStr, hex4_roundtrip hk1, hex4_roundtrip hk2]
                        rw [if_pos (by omega), if_pos (by omega), ih]
                        simp only [Option.map_some']
                        rw [show 65536 + (55296 + (c.toNat - 65536) / 1024 - 55296) * 1024 +
                          (56320 + (c.toNat - 65536) % 1024 - 56320) = c.toNat from by omega,
                          Char.ofNat_toNat]

theorem digitChar_toNat {d : Nat} (h : d < 10) : (digitChar d).toNat = 48 + d := by
  interval_cases d <;> rfl

theorem isDigitCh_digitChar {d : Nat} (h : d < 10) : isDigitCh (digitChar d) = true := by
  interval_cases d <;> rfl

theorem natDigitsGo_eq : ∀ f m acc, 0 < m → m < f →
    natDigitsGo f m acc = ((Nat.digits 10 m).map digitChar).reverse ++ acc := by
  intro f
  induction f with
  | zero => intro m acc h1 h2; omega
  | succ f ih =>
    intro m acc h1 h2
    by_cases hm : m < 10
    · simp only [natDigitsGo, if_pos hm]
      rw [Nat.digits_def' (by norm_num : (1 : Nat) < 10) h1]
      rw [Nat.mod_eq_of_lt hm, Nat.div_eq_of_lt hm]
      simp
    · simp only [natDigitsGo, if_neg hm]
      rw [ih (m / 10) (digitChar (m % 10) :: acc) (by omega) (by omega)]
      rw [Nat.digits_def' (by norm_num : (1 : Nat) < 10) h1]
      simp

theorem natDigits_eq {m : Nat} (h : 0 < m) :
    natDigits m = ((Nat.digits 10 m).map digitChar).reverse := by
  rw [natDigits, natDigitsGo_eq (m + 1) m [] h (by omega), List.append_nil]

theorem digitsVal_rev_map : ∀ L : List Nat, (∀ d ∈ L, d < 10) →
    digitsVal ((L.map digitChar).reverse) = Nat.ofDigits 10 L := by
  intro L
  induction L with
  | nil => intro; rfl
  | cons d L ih =>
    intro h
    have hd : d < 10 := h d (by simp)
    have ihh := ih (fun x hx => h x (by simp [hx]))
    simp only [List.map_cons, List.reverse_cons, digitsVal, List.foldl_append,
      List.foldl_cons, List.foldl_nil] at ihh ⊢
    rw [ihh, digitChar_toNat hd, Nat.ofDigits_cons]
    omega

theorem natDigits_all_digits (m : Nat) : ∀ c ∈ natDigits m, isDigitCh c = true := by
  by_cases h : 0 < m
  · rw [natDigits_eq h]
    intro c hc
    simp only [List.mem_reverse, List.mem_map] at hc
    obtain ⟨d, hd, rfl⟩ := hc
    exact isDigitCh_digitChar (Nat.digits_lt_base (by norm_num) hd)
  · have hm : m = 0 := by omega
    subst hm
    intro c hc
    simp only [show natDigits 0 = ['0'] from rfl, List.mem_singleton] at hc
    subst hc
    rfl

theorem digitsVal_natDigits (m : Nat) : digitsVal (natDigits m) = m := by
  by_cases h : 0 < m
  · rw [natDigits_eq h,
      digitsVal_rev_map _ (fun d hd => Nat.digits_lt_base (by norm_num) hd),
      Nat.ofDigits_digits]
  · have hm : m = 0 := by omega
    subst hm
    rfl

theorem natDigits_shape {m : Nat} (h : 0 < m) :
    ∃ d t, natDigits m = digitChar d :: t ∧ 1 ≤ d ∧ d ≤ 9 := by
  rw [natDigits_eq h]
  have hne : Nat.digits 10 m ≠ [] := Nat.digits_ne_nil_iff_ne_zero.2 (by omega)
  rcases (Nat.digits 10 m).eq_nil_or_concat with hnil | ⟨L, dl, hL⟩
  · exact absurd hnil hne
  · have h1 : (Nat.digits 10 m).getLast? = some dl := by
      rw [hL, List.concat_eq_append]
      exact List.getLast?_concat _
    have h2 := List.getLast?_eq_getLast (Nat.digits 10 m) hne
    rw [h1] at h2
    have h3 := Nat.getLast_digit_ne_zero 10 (show m ≠ 0 by omega)
    have hdl0 : dl ≠ 0 := by
      intro hz
      apply h3
      rw [← Option.some_inj.1 h2, hz]
    have hmem : dl ∈ Nat.digits 10 m := by
      rw [hL]
      simp
    have hdl9 := Nat.digits_lt_base (by norm_num) hmem
    refine ⟨dl, (L.map digitChar).reverse, ?_, by omega, by omega⟩
    rw [hL]
    simp

theorem natDigits_ne_nil (m : Nat) : natDigits m ≠ [] := by
  by_cases h : 0 < m
  · obtain ⟨d, t, hs, _, _⟩ := natDigits_shape h
    rw [hs]
    simp
  · have hm : m = 0 := by omega
    subst hm
    simp [show natDigits 0 = ['0'] from rfl]

theorem digitChar_conds {d : Nat} (h1 : 1 ≤ d) (h2 : d ≤ 9) :
    ¬(digitChar d = '0') ∧ ('1' ≤ digitChar d ∧ digitChar d ≤ '9') := by
  interval_cases d <;> exact ⟨by decide, by decide⟩

theorem parseNat_natDigits (m : Nat) (rest : List Char)
    (hbnd : ∀ d, rest.head? = some d → isDigitCh d = false) :
    parseNat (natDigits m ++ rest) = some (m, rest) := by
  by_cases h : 0 < m
  · obtain ⟨d, t, hshape, hd1, hd9⟩ := natDigits_shape h
    have hall : ∀ c ∈ t, isDigitCh c = true := by
      intro c hc
      exact natDigits_all_digits m c (by rw [hshape]; simp [hc])
    obtain ⟨htw, hdw⟩ := takeWhile_append_exact hall hbnd
    obtain ⟨hne0, hcond⟩ := digitChar_conds hd1 hd9
    rw [hshape, List.cons_append]
    simp only [parseNat]
    rw [if_neg hne0, if_pos hcond, htw, hdw]
    rw [show digitChar d :: t = natDigits m from hshape.symm, digitsVal_natDigits]
  · have hm : m = 0 := by omega
    subst hm
    rw [show natDigits 0 = ['0'] from rfl]
    simp [parseNat]

theorem parseNum_intChars (n : Int) (rest : List Char)
    (hbnd : ∀ d, rest.head? = some d → isDigitCh d = false) :
    parseNum (intChars n ++ rest) = some (Json.num n, rest) := by
  by_cases hneg : n < 0
  · rw [intChars, if_pos hneg, List.cons_append]
    simp only [parseNum]
    rw [parseNat_natDigits n.natAbs rest hbnd]
    simp only [Option.map_some']
    rw [show -(n.natAbs : Int) = n from by omega]
  · rw [intChars, if_neg hneg]
    obtain ⟨c, t, hct⟩ : ∃ c t, natDigits n.natAbs = c :: t := by
      cases hnd : natDigits n.natAbs with
      | nil => exact absurd hnd (natDigits_ne_nil _)
      | cons c t => exact ⟨c, t, rfl⟩
    have hcd : isDigitCh c = true := natDigits_all_digits _ c (by rw [hct]; simp)
    have hcne : ¬c = '-' := by
      intro he
      subst he
      exact absurd hcd (by decide)
    rw [hct, List.cons_append, parseNum_not_neg c _ hcne]
    rw [show c :: (t ++ rest) = natDigits n.natAbs ++ rest from by rw [hct]; simp]
    rw [parseNat_natDigits n.natAbs rest hbnd]
    simp only [Option.map_some']
    rw [show (n.natAbs : Int) = n from by omega]

theorem dumpElems_eq (v : Json) (vs : List Json) :
    dumpElems (v :: vs) = dumpChars v ++ arrSepChars vs := by
  induction vs generalizing v with
  | nil => simp [dumpElems, arrSepChars]
  | cons w ws ih =>
    simp [dumpElems, arrSepChars, ih]

theorem dumpMembers_eq (k : String) (v : Json) (ms : List (String × Json)) :
    dumpMembers ((k, v) :: ms) =
      encodeStr k ++ ':' :: ' ' :: dumpChars v ++ objSepChars ms := by
  induction ms generalizing k v with
  | nil => simp [dumpMembers, objSepChars]
  | cons m ms ih =>
    obtain ⟨k2, v2⟩ := m
    simp [dumpMembers, objSepChars, ih]

theorem escChar_ne_nil (c : Char) : escChar c ≠ [] := by
  unfold escChar
  split_ifs <;> simp

theorem foldr_esc_ne_nil (cs : List Char) :
    cs.foldr (fun c acc => escChar c ++ acc) ['"'] ≠ [] := by
  cases cs with
  | nil => simp
  | cons c cs =>
    simp only [List.foldr_cons]
    intro h
    exact escChar_ne_nil c (List.append_eq_nil.1 h).1

theorem encodeStr_len (k : String) : 2 ≤ (encodeStr k).length := by
  rw [encodeStr]
  simp only [List.length_cons]
  have h := foldr_esc_ne_nil k.data
  cases hc : k.data.foldr (fun c acc => escChar c ++ acc) ['"'] with
  | nil => exact absurd hc h
  | cons a t => simp [hc]

theorem dumpChars_head_facts (v : Json) :
    ∃ c t, dumpChars v = c :: t ∧ isPySpace c = false ∧ ¬c = ']' ∧ ¬c = rbraceC := by
  cases v with
  | null =>
    refine ⟨'n', _, rfl, ?_, ?_, ?_⟩ <;> decide
  | bool b =>
    cases b with
    | true =>
      refine ⟨'t', _, rfl, ?_, ?_, ?_⟩ <;> decide
    | false =>
      refine ⟨'f', _, rfl, ?_, ?_, ?_⟩ <;> decide
  | str s =>
    refine ⟨'"', _, rfl, ?_, ?_, ?_⟩ <;> decide
  | arr vs =>
    refine ⟨'[', dumpElems vs ++ [']'], ?_, ?_, ?_, ?_⟩
    · simp [dumpChars]
    all_goals decide
  | obj ms =>
    refine ⟨lbraceC, dumpMembers ms ++ [rbraceC], ?_, ?_, ?_, ?_⟩
    · simp [dumpChars]
    all_goals decide
  | num m =>
    rw [show dumpChars (Json.num m) = intChars m from rfl, intChars]
    by_cases hneg : m < 0
    · rw [if_pos hneg]
      exact ⟨'-', _, rfl, by decide, by decide, by decide⟩
    · rw [if_neg hneg]
      by_cases hz : 0 < m.natAbs
      · obtain ⟨d, t, hshape, hd1, hd9⟩ := natDigits_shape hz
        refine ⟨digitChar d, t, hshape, ?_, ?_, ?_⟩
        · exact digit_not_pySpace (isDigitCh_digitChar (by omega))
        · interval_cases d <;> decide
        · interval_cases d <;> decide
      · have hm : m.natAbs = 0 := by omega
        rw [hm]
        exact ⟨'0', [], rfl, by decide, by decide, by decide⟩

theorem dumpChars_ne_nil (v : Json) : dumpChars v ≠ [] := by
  obtain ⟨c, t, hct, _⟩ := dumpChars_head_facts v
  rw [hct]
  simp

theorem skipWs_cons_nonws {c : Char} (h : isJsonWs c = false) (t : List Char) :
    skipWs (c :: t) = c :: t :=
  dropWhile_cons_of_neg (by simp [h])

theorem skipWs_dump_append (v : Json) (z : List Char) :
    skipWs (dumpChars v ++ z) = dumpChars v ++ z := by
  obtain ⟨c, t, hct, hps, _, _⟩ := dumpChars_head_facts v
  rw [hct, List.cons_append]
  exact skipWs_cons_nonws (not_jsonWs_of_not_pySpace hps) _

theorem skipWs_space_dump (v : Json) (z : List Char) :
    skipWs (' ' :: (dumpChars v ++ z)) = dumpChars v ++ z := by
  have h1 : skipWs (' ' :: (dumpChars v ++ z)) = skipWs (dumpChars v ++ z) := by
    rw [skipWs, List.dropWhile_cons, if_pos (by decide)]
    rfl
  rw [h1, skipWs_dump_append]

theorem arrSep_head_nondigit (vs : List Json) (z : List Char) :
    ∀ d, (arrSepChars vs ++ ']' :: z).head? = some d → isDigitCh d = false := by
  intro d hd
  cases vs with
  | nil => simp [arrSepChars] at hd; subst hd; decide
  | cons v vs => simp [arrSepChars] at hd; subst hd; decide

theorem objSep_head_nondigit (ms : List (String × Json)) (z : List Char) :
    ∀ d, (objSepChars ms ++ rbraceC :: z).head? = some d → isDigitCh d = false := by
  intro d hd
  cases ms with
  | nil => simp [objSepChars] at hd; subst hd; decide
  | cons m ms =>
    obtain ⟨k, v⟩ := m
    simp [objSepChars] at hd
    subst hd
    decide

theorem parseValue_num_head (n : Nat) (c : Char) (t : List Char)
    (hc : c = '-' ∨ isDigitCh c = true) :
    parseValue (n + 1) (c :: t) = parseNum (c :: t) := by
  rcases hc with rfl | hd
  · simp only [parseValue]
    rw [if_neg (by decide), if_neg (by decide), if_neg (by decide), if_neg (by decide),
      if_neg (by decide), if_neg (by decide)]
  · simp only [parseValue]
    rw [if_neg (fun he => absurd (he ▸ hd) (by decide)),
      if_neg (fun he => absurd (he ▸ hd) (by decide)),
      if_neg (fun he => absurd (he ▸ hd) (by decide)),
      if_neg (fun he => absurd (he ▸ hd) (by decide)),
      if_neg (fun he => absurd (he ▸ hd) (by decide)),
      if_neg (fun he => absurd (he ▸ hd) (by decide))]

theorem rtFam (n : Nat) :
    (∀ v rest, 2 * (dumpChars v).length ≤ n →
      (∀ d, rest.head? = some d → isDigitCh d = false) →
      parseValue n (dumpChars v ++ rest) = some (v, rest)) ∧
    (∀ vs rest, 2 * (dumpElems vs).length + 2 ≤ n →
      parseArrTail n (dumpElems vs ++ ']' :: rest) = some (vs, rest)) ∧
    (∀ vs rest, 2 * (arrSepChars vs).length + 2 ≤ n →
      parseArrSep n (arrSepChars vs ++ ']' :: rest) = some (vs, rest)) ∧
    (∀ ms rest, 2 * (dumpMembers ms).length + 2 ≤ n →
      parseObjTail n (dumpMembers ms ++ rbraceC :: rest) = some (ms, rest)) ∧
    (∀ k v ms rest,
      2 * ((encodeStr k).length + (dumpChars v).length + (objSepChars ms).length) ≤ n →
      parseMember n (k.data.foldr (fun c acc => escChar c ++ acc) ['"'] ++
        ':' :: ' ' :: (dumpChars v ++ (objSepChars ms ++ rbraceC :: rest))) =
        some ((k, v) :: ms, rest)) ∧
    (∀ ms rest, 2 * (objSepChars ms).length + 2 ≤ n →
      parseObjSep n (objSepChars ms ++ rbraceC :: rest) = some (ms, rest)) := by
  induction n with
  | zero =>
    refine ⟨?_, ?_, ?_, ?_, ?_, ?_⟩
    · intro v rest hf _
      exfalso
      obtain ⟨c, t, hct, _⟩ := dumpChars_head_facts v
      rw [hct] at hf
      simp only [List.length_cons] at hf
      omega
    · intro a b hf
      omega
    · intro a b hf
      omega
    · intro a b hf
      omega
    · intro k v ms rest hf
      exfalso
      have := encodeStr_len k
      omega
    · intro a b hf
      omega
  | succ n ih =>
    obtain ⟨ihV, ihAT, ihAS, ihOT, ihM, ihOS⟩ := ih
    refine ⟨?_, ?_, ?_, ?_, ?_, ?_⟩
    · -- parseValue
      intro v rest hf hbnd
      cases v with
      | null =>
        rw [show dumpChars Json.null ++ rest = 'n' :: 'u' :: 'l' :: 'l' :: rest from rfl]
        simp only [parseValue]
        rw [if_neg (by decide), if_neg (by decide), if_neg (by decide), if_neg (by decide),
          if_neg (by decide), if_true]
        rw [show 'u' :: 'l' :: 'l' :: rest = ['u', 'l', 'l'] ++ rest from rfl,
          expectChars_self]
        rfl
      | bool b =>
        cases b with
        | true =>
          rw [show dumpChars (Json.bool true) ++ rest =
            't' :: 'r' :: 'u' :: 'e' :: rest from rfl]
          simp only [parseValue]
          rw [if_neg (by decide), if_neg (by decide), if_neg (by decide), if_true]
          rw [show 'r' :: 'u' :: 'e' :: rest = ['r', 'u', 'e'] ++ rest from rfl,
            expectChars_self]
          rfl
        | false =>
          rw [show dumpChars (Json.bool false) ++ rest =
            'f' :: 'a' :: 'l' :: 's' :: 'e' :: rest from rfl]
          simp only [parseValue]
          rw [if_neg (by decide), if_neg (by decide), if_neg (by decide), if_neg (by decide),
            if_true]
          rw [show 'a' :: 'l' :: 's' :: 'e' :: rest = ['a', 'l', 's', 'e'] ++ rest from rfl,
            expectChars_self]
          rfl
      | num m =>
        obtain ⟨c, t, hct⟩ : ∃ c t, intChars m = c :: t := by
          cases hi : intChars m with
          | nil =>
            exfalso
            rw [intChars] at hi
            split_ifs at hi
            exact natDigits_ne_nil _ hi
          | cons c t => exact ⟨c, t, rfl⟩
        have hc : c = '-' ∨ isDigitCh c = true := by
          rw [intChars] at hct
          split_ifs at hct with hneg
          · exact Or.inl (List.cons_eq_cons.1 hct).1.symm
          · refine Or.inr (natDigits_all_digits m.natAbs c ?_)
            rw [hct]
            simp
        rw [show dumpChars (Json.num m) = intChars m from rfl, hct, List.cons_append,
          parseValue_num_head n c _ hc]
        rw [show c :: (t ++ rest) = intChars m ++ rest from by rw [hct]; simp]
        exact parseNum_intChars m rest hbnd
      | str s =>
        rw [show dumpChars (Json.str s) ++ rest = '"' ::
          (s.data.foldr (fun c acc => escChar c ++ acc) ['"'] ++ rest) from rfl]
        simp only [parseValue]
        rw [if_true, parseStr_enc]
        simp [string_mk_data]
      | arr vs =>
        rw [show dumpChars (Json.arr vs) ++ rest =
            '[' :: (dumpElems vs ++ ']' :: rest) from by
          rw [show dumpChars (Json.arr vs) = ('[' :: dumpElems vs) ++ [']'] from rfl]
          simp]
        simp only [parseValue]
        rw [if_neg (by decide), if_neg (by decide), if_true]
        have hsw : skipWs (dumpElems vs ++ ']' :: rest) = dumpElems vs ++ ']' :: rest := by
          cases vs with
          | nil =>
            rw [show dumpElems [] = ([] : List Char) from rfl, List.nil_append]
            exact skipWs_cons_nonws (by decide) _
          | cons w ws =>
            rw [dumpElems_eq, List.append_assoc]
            exact skipWs_dump_append w _
        have hfE : 2 * (dumpElems vs).length + 2 ≤ n := by
          rw [show dumpChars (Json.arr vs) = ('[' :: dumpElems vs) ++ [']'] from rfl] at hf
          simp only [List.length_append, List.length_cons, List.length_nil] at hf
          omega
        rw [hsw, ihAT vs rest hfE]
        rfl
      | obj ms =>
        rw [show dumpChars (Json.obj ms) ++ rest =
            lbraceC :: (dumpMembers ms ++ rbraceC :: rest) from by
          rw [show dumpChars (Json.obj ms) = (lbraceC :: dumpMembers ms) ++ [rbraceC] from rfl]
          simp]
        simp only [parseValue]
        rw [if_neg (by decide), if_true]
        have hsw : skipWs (dumpMembers ms ++ rbraceC :: rest) =
            dumpMembers ms ++ rbraceC :: rest := by
          cases ms with
          | nil =>
            rw [show dumpMembers [] = ([] : List Char) from rfl, List.nil_append]
            exact skipWs_cons_nonws (by decide) _
          | cons m ms =>
            obtain ⟨k, v⟩ := m
            rw [dumpMembers_eq]
            rw [show (encodeStr k ++ ':' :: ' ' :: dumpChars v ++ objSepChars ms) ++
                rbraceC :: rest = '"' ::
                (k.data.foldr (fun c acc => escChar c ++ acc) ['"'] ++
                  (':' :: ' ' :: dumpChars v ++ (objSepChars ms ++ rbraceC :: rest))) from by
              rw [encodeStr]
              simp]
            exact skipWs_cons_nonws (by decide) _
        have hfM : 2 * (dumpMembers ms).length + 2 ≤ n := by
          rw [show dumpChars (Json.obj ms) = (lbraceC :: dumpMembers ms) ++ [rbraceC] from
            rfl] at hf
          simp only [List.length_append, List.length_cons, List.length_nil] at hf
          omega
        rw [hsw, ihOT ms rest hfM]
        rfl
    · -- parseArrTail
      intro vs rest hf
      cases vs with
      | nil =>
        rw [show dumpElems [] = ([] : List Char) from rfl, List.nil_append]
        simp [parseArrTail]
      | cons v vs =>
        rw [dumpElems_eq, List.append_assoc]
        obtain ⟨c, t, hct, hps, hne1, hne2⟩ := dumpChars_head_facts v
        have hf2 : 2 * ((dumpChars v).length + (arrSepChars vs).length) + 2 ≤ n + 1 := by
          rw [dumpElems_eq] at hf
          simp only [List.length_append] at hf
          omega
        have hvlen : 1 ≤ (dumpChars v).length := by
          rw [hct]
          simp
        rw [hct, List.cons_append]
        simp only [parseArrTail]
        rw [if_neg hne1]
        have hin : parseValue n (c :: (t ++ (arrSepChars vs ++ ']' :: rest))) =
            some (v, arrSepChars vs ++ ']' :: rest) := by
          rw [show c :: (t ++ (arrSepChars vs ++ ']' :: rest)) =
              dumpChars v ++ (arrSepChars vs ++ ']' :: rest) from by rw [hct]; simp]
          exact ihV v _ (by omega) (arrSep_head_nondigit vs rest)
        rw [hin]
        have hAS := ihAS vs rest (by omega)
        simp [hAS]
    · -- parseArrSep
      intro vs rest hf
      cases vs with
      | nil =>
        rw [show arrSepChars [] = ([] : List Char) from rfl, List.nil_append]
        simp only [parseArrSep]
        rw [skipWs_cons_nonws (show isJsonWs ']' = false from by decide)]
        simp
      | cons v vs =>
        have hf2 : 2 * (2 + ((dumpChars v).length + (arrSepChars vs).length)) + 2 ≤ n + 1 := by
          rw [show arrSepChars (v :: vs) =
            ',' :: ' ' :: (dumpChars v ++ arrSepChars vs) from rfl] at hf
          simp only [List.length_append, List.length_cons] at hf
          omega
        have hvlen : 1 ≤ (dumpChars v).length :=
          List.length_pos.2 (dumpChars_ne_nil v)
        rw [show arrSepChars (v :: vs) ++ ']' :: rest =
            ',' :: ' ' :: (dumpChars v ++ (arrSepChars vs ++ ']' :: rest)) from by
          rw [show arrSepChars (v :: vs) =
            ',' :: ' ' :: (dumpChars v ++ arrSepChars vs) from rfl]
          simp]
        have hV := ihV v (arrSepChars vs ++ ']' :: rest) (by omega)
          (arrSep_head_nondigit vs rest)
        have hAS := ihAS vs rest (by omega)
        simp [parseArrSep, skipWs_cons_nonws (show isJsonWs ',' = false from by decide),
          skipWs_space_dump, hV, hAS]
    · -- parseObjTail
      intro ms rest hf
      cases ms with
      | nil =>
        rw [show dumpMembers [] = ([] : List Char) from rfl, List.nil_append]
        simp [parseObjTail]
      | cons m ms =>
        obtain ⟨k, v⟩ := m
        have hf2 : 2 * ((encodeStr k).length + 2 + (dumpChars v).length +
            (objSepChars ms).length) + 2 ≤ n + 1 := by
          rw [dumpMembers_eq] at hf
          simp only [List.length_append, List.length_cons] at hf
          omega
        rw [dumpMembers_eq]
        rw [show (encodeStr k ++ ':' :: ' ' :: dumpChars v ++ objSepChars ms) ++
            rbraceC :: rest = '"' ::
            (k.data.foldr (fun c acc => escChar c ++ acc) ['"'] ++
              ':' :: ' ' :: (dumpChars v ++ (objSepChars ms ++ rbraceC :: rest))) from by
          rw [encodeStr]
          simp]
        have hM := ihM k v ms rest (by omega)
        simp [parseObjTail, hM, show ¬('"' = rbraceC) from by decide]
    · -- parseMember
      intro k v ms rest hf
      have hvlen : 1 ≤ (dumpChars v).length := List.length_pos.2 (dumpChars_ne_nil v)
      have hklen := encodeStr_len k
      have hstr := parseStr_enc k.data
        (':' :: ' ' :: (dumpChars v ++ (objSepChars ms ++ rbraceC :: rest)))
      have hV := ihV v (objSepChars ms ++ rbraceC :: rest) (by omega)
        (objSep_head_nondigit ms rest)
      have hOS := ihOS ms rest (by omega)
      simp [parseMember, hstr, hV, hOS,
        skipWs_cons_nonws (show isJsonWs ':' = false from by decide),
        skipWs_space_dump, string_mk_data]
    · -- parseObjSep
      intro ms rest hf
      cases ms with
      | nil =>
        rw [show objSepChars [] = ([] : List Char) from rfl, List.nil_append]
        simp only [parseObjSep]
        rw [skipWs_cons_nonws (show isJsonWs rbraceC = false from by decide)]
        simp
      | cons m ms =>
        obtain ⟨k, v⟩ := m
        have hvlen : 1 ≤ (dumpChars v).length := List.length_pos.2 (dumpChars_ne_nil v)
        have hklen := encodeStr_len k
        have hf2 : 2 * (2 + ((encodeStr k).length + 2 + (dumpChars v).length +
            (objSepChars ms).length)) + 2 ≤ n + 1 := by
          rw [show objSepChars ((k, v) :: ms) = ',' :: ' ' ::
            (encodeStr k ++ ':' :: ' ' :: dumpChars v ++ objSepChars ms) from rfl] at hf
          simp only [List.length_append, List.length_cons] at hf
          omega
        rw [show objSepChars ((k, v) :: ms) ++ rbraceC :: rest =
            ',' :: ' ' :: ('"' :: (k.data.foldr (fun c acc => escChar c ++ acc) ['"'] ++
              ':' :: ' ' :: (dumpChars v ++ (objSepChars ms ++ rbraceC :: rest)))) from by
          rw [show objSepChars ((k, v) :: ms) = ',' :: ' ' ::
            (encodeStr k ++ ':' :: ' ' :: dumpChars v ++ objSepChars ms) from rfl,
            encodeStr]
          simp]
        have hM := ihM k v ms rest (by omega)
        have hsq : skipWs (' ' :: ('"' ::
            (k.data.foldr (fun c acc => escChar c ++ acc) ['"'] ++
              ':' :: ' ' :: (dumpChars v ++ (objSepChars ms ++ rbraceC :: rest))))) =
            '"' :: (k.data.foldr (fun c acc => escChar c ++ acc) ['"'] ++
              ':' :: ' ' :: (dumpChars v ++ (objSepChars ms ++ rbraceC :: rest))) := by
          rw [skipWs, List.dropWhile_cons, if_pos (by decide)]
          exact skipWs_cons_nonws (by decide) _
        simp [parseObjSep, skipWs_cons_nonws (show isJsonWs ',' = false from by decide),
          hsq, hM, show ¬(',' = rbraceC) from by decide]

theorem jsonLoads_dumps (v : Json) : jsonLoads (jsonDumps v) = some v := by
  have hrt := (rtFam (2 * (dumpChars v).length + 2)).1 v [] (by omega)
    (by intro d hd; simp at hd)
  rw [List.append_nil] at hrt
  have hsw : skipWs (dumpChars v) = dumpChars v := by
    have h := skipWs_dump_append v []
    simpa using h
  simp only [jsonLoads]
  rw [show (jsonDumps v).data = dumpChars v from rfl]
  rw [hsw, hrt]
  simp [skipWs]

theorem hasTriple_tail {c : Char} {t : List Char} (h : hasTriple (c :: t) = false) :
    hasTriple t = false := by
  match t with
  | [] => rfl
  | [a] => rfl
  | a :: b :: rest =>
    simp only [hasTriple, Bool.or_eq_false_iff] at h
    exact h.2

theorem hasTriple_cons_of {c : Char} {t : List Char} (h : hasTriple t = true) :
    hasTriple (c :: t) = true := by
  match t with
  | [] => simp [hasTriple] at h
  | [a] => simp [hasTriple] at h
  | a :: b :: rest =>
    simp only [hasTriple, Bool.or_eq_true]
    exact Or.inr h

theorem hasTriple_append_right (t y : List Char) (h : hasTriple t = true) :
    hasTriple (t ++ y) = true := by
  induction t with
  | nil => simp [hasTriple] at h
  | cons a t ih =>
    match t, ih, h with
    | [], _, h => simp [hasTriple] at h
    | [b0], _, h => simp [hasTriple] at h
    | b0 :: c0 :: rest, ih, h =>
      simp only [hasTriple, Bool.or_eq_true] at h
      rcases h with h | h
      · simp only [List.cons_append, hasTriple, Bool.or_eq_true]
        exact Or.inl h
      · have h2 := ih h
        simp only [List.cons_append, hasTriple, Bool.or_eq_true]
        right
        simpa using h2

theorem hasTriple_append_left (x t : List Char) (h : hasTriple t = true) :
    hasTriple (x ++ t) = true := by
  induction x with
  | nil => exact h
  | cons c x ih => exact hasTriple_cons_of ih

theorem hasTriple_infix_false {x p y : List Char}
    (h : hasTriple (x ++ p ++ y) = false) : hasTriple p = false := by
  by_contra hc
  have hp : hasTriple p = true := by
    cases ht : hasTriple p
    · exact absurd ht hc
    · rfl
  have h2 := hasTriple_append_left x (p ++ y) (hasTriple_append_right p y hp)
  rw [← List.append_assoc] at h2
  rw [h2] at h
  exact absurd h (by simp)

theorem wsThenFence_false (p : List Char) : ∀ r z, p ≠ [] → lastNonWs p →
    hasTriple p = false → (∀ c ∈ r, isPySpace c = true) → r ≠ [] →
    wsThenFence (p ++ (r ++ backtickC :: backtickC :: backtickC :: z)) = false := by
  induction p with
  | nil =>
    intro r z hne _ _ _ _
    exact absurd rfl hne
  | cons c p1 ih =>
    intro r z _ hlast htrip hr hrne
    by_cases hc : isPySpace c = true
    · have hp1ne : p1 ≠ [] := by
        intro he
        subst he
        have := hlast c rfl
        rw [hc] at this
        exact absurd this (by simp)
      have hlast1 : lastNonWs p1 := by
        intro d hd
        apply hlast
        rw [show (c :: p1) = [c] ++ p1 from rfl, getLast?_append_right hp1ne]
        exact hd
      have hstep : wsThenFence ((c :: p1) ++
          (r ++ backtickC :: backtickC :: backtickC :: z)) =
          wsThenFence (p1 ++ (r ++ backtickC :: backtickC :: backtickC :: z)) := by
        simp only [wsThenFence, List.cons_append, List.dropWhile_cons, hc, if_true]
      rw [hstep]
      exact ih r z hp1ne hlast1 (hasTriple_tail htrip) hr hrne
    · simp only [wsThenFence, decide_eq_false_iff_not]
      intro hcontra
      rw [List.cons_append,
        dropWhile_cons_of_neg (by simp [hc])] at hcontra
      obtain ⟨rh, rt, hrr⟩ : ∃ rh rt, r = rh :: rt := by
        cases r with
        | nil => exact absurd rfl hrne
        | cons rh rt => exact ⟨rh, rt, rfl⟩
      have hrhb : ¬rh = backtickC := by
        intro he
        have := hr rh (by rw [hrr]; simp)
        rw [he] at this
        exact absurd this (by decide)
      match p1, htrip, hcontra with
      | [], htrip, hcontra =>
        rw [hrr] at hcontra
        simp only [List.nil_append, List.cons_append, List.take_succ_cons,
          List.cons.injEq] at hcontra
        obtain ⟨hc1, hc2, _⟩ := hcontra
        cases rt with
        | nil => exact absurd hc2 hrhb
        | cons a b => exact absurd hc2 hrhb
      | [d], htrip, hcontra =>
        rw [hrr] at hcontra
        simp only [List.cons_append, List.nil_append, List.take_succ_cons,
          List.cons.injEq] at hcontra
        exact absurd hcontra.2.2.1 hrhb
      | d :: e :: p3, htrip, hcontra =>
        simp only [List.cons_append, List.take_succ_cons, List.cons.injEq] at hcontra
        obtain ⟨hc1, hc2, hc3, _⟩ := hcontra
        subst hc1
        subst hc2
        subst hc3
        simp [hasTriple] at htrip

theorem fenceInner_at_ws (w z : List Char) (hw : ∀ c ∈ w, isPySpace c = true) :
    fenceInner (w ++ backtickC :: backtickC :: backtickC :: z) = some [] := by
  have hws : wsThenFence (w ++ backtickC :: backtickC :: backtickC :: z) = true := by
    simp only [wsThenFence, decide_eq_true_eq]
    rw [dropWhile_append_all hw, dropWhile_cons_of_neg (by decide)]
    simp [List.take]
  cases hwz : w ++ backtickC :: backtickC :: backtickC :: z with
  | nil => simp at hwz
  | cons a t =>
    rw [hwz] at hws
    simp [fenceInner, hws]

theorem fenceInner_value (p : List Char) : ∀ r z, lastNonWs p → hasTriple p = false →
    (∀ c ∈ r, isPySpace c = true) → r ≠ [] →
    fenceInner (p ++ (r ++ backtickC :: backtickC :: backtickC :: z)) = some p := by
  induction p with
  | nil =>
    intro r z _ _ hr _
    simp only [List.nil_append]
    exact fenceInner_at_ws r z hr
  | cons c p1 ih =>
    intro r z hlast htrip hr hrne
    have hwsf := wsThenFence_false (c :: p1) r z (by simp) hlast htrip hr hrne
    have hlast1 : lastNonWs p1 := by
      by_cases hp1 : p1 = []
      · subst hp1
        intro d hd
        simp at hd
      · intro d hd
        apply hlast
        rw [show (c :: p1) = [c] ++ p1 from rfl, getLast?_append_right hp1]
        exact hd
    have hih := ih r z hlast1 (hasTriple_tail htrip) hr hrne
    have hwsf2 : wsThenFence (c :: (p1 ++
        (r ++ backtickC :: backtickC :: backtickC :: z))) = false := by
      simpa using hwsf
    simp [fenceInner, hwsf2, hih]

theorem pyStrip_id (p : List Char) (hh : headNonWs p) (hl : lastNonWs p) :
    pyStrip p = p := by
  rw [pyStrip]
  have h1 : p.dropWhile isPySpace = p := by
    cases p with
    | nil => rfl
    | cons c t => exact dropWhile_cons_of_neg (by simp [hh c rfl])
  rw [h1]
  have h2 : p.reverse.dropWhile isPySpace = p.reverse := by
    cases hrev : p.reverse with
    | nil => rfl
    | cons c t =>
      refine dropWhile_cons_of_neg ?_
      have hgl : p.getLast? = some c := by
        rw [← List.head?_reverse, hrev]
        rfl
      simp [hl c hgl]
  rw [h2, List.reverse_reverse]

theorem parseValue_backtick (n : Nat) (t : List Char) :
    parseValue n (backtickC :: t) = none := by
  cases n with
  | zero => rfl
  | succ n =>
    simp only [parseValue]
    rw [if_neg (by decide), if_neg (by decide), if_neg (by decide), if_neg (by decide),
      if_neg (by decide), if_neg (by decide)]
    rw [parseNum_not_neg backtickC t (by decide)]
    simp only [parseNat]
    rw [if_neg (by decide), if_neg (by decide)]
    rfl

theorem jsonLoads_backtick (s : String) (h : s.data.head? = some backtickC) :
    jsonLoads s = none := by
  obtain ⟨t, ht⟩ : ∃ t, s.data = backtickC :: t := by
    cases hd : s.data with
    | nil => rw [hd] at h; simp at h
    | cons a t =>
      rw [hd] at h
      simp only [List.head?_cons, Option.some.injEq] at h
      subst h
      exact ⟨t, rfl⟩
  simp only [jsonLoads]
  rw [ht, skipWs_cons_nonws (by decide), parseValue_backtick]

theorem jsonLoads_decomp (s : String) (v : Json) (h : jsonLoads s = some v) :
    ∃ p r, skipWs s.data = p ++ r ∧ p ≠ [] ∧ headNonWs p ∧ lastNonWs p ∧
      (∀ c ∈ r, isJsonWs c = true) ∧
      parseValue (2 * p.length + 2) p = some (v, []) := by
  simp only [jsonLoads] at h
  match hpv : parseValue (2 * s.data.length + 2) (skipWs s.data) with
  | none => rw [hpv] at h; simp at h
  | some (v0, r) =>
    simp only [hpv] at h
    split_ifs at h with hre
    · simp only [Option.some.injEq] at h
      subst h
      obtain ⟨p, hps, hpne, hh, hl⟩ := (parseFam_shape _).1 _ _ _ hpv
      refine ⟨p, r, hps, hpne, hh, hl, skipWs_eq_nil_all hre, ?_⟩
      have hpd : parseValue (2 * s.data.length + 2) (p ++ []) = some (v0, []) := by
        apply (parseFam_pd _).1 p r [] v0 ?_ ?_
        · rw [← hps]
          exact hpv
        · intro d hd
          simp at hd
      rw [List.append_nil] at hpd
      exact (parseFam_fuel _).1 _ _ _ hpd _ (by simp)

theorem jsonLoads_mk_value (p : List Char) (v : Json) (hh : headNonWs p)
    (hpv : parseValue (2 * p.length + 2) p = some (v, [])) :
    jsonLoads (String.mk p) = some v := by
  simp only [jsonLoads]
  have hsw : skipWs p = p := by
    cases p with
    | nil => rfl
    | cons c t => exact skipWs_cons_nonws (not_jsonWs_of_not_pySpace (hh c rfl)) t
  simp only [hsw, hpv]
  simp [skipWs]

theorem clean_fenced (s : String) (v : Json) (hl : jsonLoads s = some v)
    (hnt : hasTriple s.data = false) :
    clean_json_response ("```json\n" ++ s ++ "\n```") = .ok v := by
  obtain ⟨p, r, hps, hpne, hh, hlst, hrws, hpv⟩ := jsonLoads_decomp s v hl
  have hdata : ("```json\n" ++ s ++ "\n```").data =
      backtickC :: backtickC :: backtickC :: 'j' :: 's' :: 'o' :: 'n' :: '\n' ::
        (s.data ++ ('\n' :: backtickC :: backtickC :: backtickC :: [])) := by
    rw [String.data_append, String.data_append]
    rw [show ("```json\n" : String).data = [backtickC, backtickC, backtickC,
      'j', 's', 'o', 'n', '\n'] from rfl]
    rw [show ("\n```" : String).data = ['\n', backtickC, backtickC, backtickC] from rfl]
    simp
  have hsd : s.data = s.data.takeWhile isJsonWs ++ (p ++ r) := by
    conv_lhs => rw [← List.takeWhile_append_dropWhile isJsonWs s.data]
    rw [show List.dropWhile isJsonWs s.data = p ++ r from hps]
  have htrip : hasTriple p = false := by
    have hnt2 : hasTriple (s.data.takeWhile isJsonWs ++ p ++ r) = false := by
      rw [List.append_assoc, ← hsd]
      exact hnt
    exact hasTriple_infix_false hnt2
  have hrpy : ∀ c ∈ r ++ ['\n'], isPySpace c = true := by
    intro c hc
    simp only [List.mem_append, List.mem_singleton] at hc
    rcases hc with hc | rfl
    · exact jsonWs_pySpace (hrws c hc)
    · decide
  have hdw : List.dropWhile isPySpace ('\n' ::
      (s.data ++ ('\n' :: backtickC :: backtickC :: backtickC :: []))) =
      p ++ ((r ++ ['\n']) ++ backtickC :: backtickC :: backtickC :: []) := by
    have hall : ∀ c ∈ ('\n' :: s.data.takeWhile isJsonWs), isPySpace c = true := by
      intro c hc
      simp only [List.mem_cons] at hc
      rcases hc with rfl | hc
      · decide
      · exact jsonWs_pySpace (List.mem_takeWhile_imp hc)
    have hshape : '\n' :: (s.data ++ ('\n' :: backtickC :: backtickC :: backtickC :: [])) =
        ('\n' :: s.data.takeWhile isJsonWs) ++
          (p ++ ((r ++ ['\n']) ++ backtickC :: backtickC :: backtickC :: [])) := by
      conv_lhs => rw [hsd]
      simp
    rw [hshape, dropWhile_append_all hall]
    cases hp : p with
    | nil => exact absurd hp hpne
    | cons c t =>
      rw [List.cons_append]
      refine dropWhile_cons_of_neg ?_
      have := hh c (by rw [hp]; rfl)
      simp [this]
  have hfi := fenceInner_value p (r ++ ['\n']) [] hlst htrip hrpy (by simp)
  have he1 : expectChars [backtickC, backtickC, backtickC]
      (backtickC :: backtickC :: backtickC :: 'j' :: 's' :: 'o' :: 'n' :: '\n' ::
        (s.data ++ ('\n' :: backtickC :: backtickC :: backtickC :: []))) =
      some ('j' :: 's' :: 'o' :: 'n' :: '\n' ::
        (s.data ++ ('\n' :: backtickC :: backtickC :: backtickC :: []))) :=
    expectChars_self [backtickC, backtickC, backtickC] _
  have he2 : expectChars ['j', 's', 'o', 'n']
      ('j' :: 's' :: 'o' :: 'n' :: '\n' ::
        (s.data ++ ('\n' :: backtickC :: backtickC :: backtickC :: []))) =
      some ('\n' :: (s.data ++ ('\n' :: backtickC :: backtickC :: backtickC :: []))) :=
    expectChars_self ['j', 's', 'o', 'n'] _
  have hfm : fenceMatchAt (backtickC :: backtickC :: backtickC :: 'j' :: 's' :: 'o' :: 'n' ::
      '\n' :: (s.data ++ ('\n' :: backtickC :: backtickC :: backtickC :: []))) = some p := by
    simp only [fenceMatchAt, he1, he2, hdw, hfi]
  have hfs : fenceSearch (("```json\n" ++ s ++ "\n```").data) = some p := by
    rw [hdata]
    simp only [fenceSearch, hfm]
  have hne : ("```json\n" ++ s ++ "\n```") ≠ "" := by
    intro he
    have hd2 := congrArg String.data he
    rw [hdata] at hd2
    simp at hd2
  have hjb : jsonLoads ("```json\n" ++ s ++ "\n```") = none := by
    apply jsonLoads_backtick
    rw [hdata]
    rfl
  have hmk : jsonLoads (String.mk (pyStrip p)) = some v := by
    rw [pyStrip_id p hh hlst]
    exact jsonLoads_mk_value p v hh hpv
  simp only [clean_json_response, if_neg hne, hjb, fenceAttempt, hfs, hmk]

theorem execute_tool_calls_length (env : ExecEnv) (tool_calls : List ToolCall) :
    (execute_tool_calls env tool_calls).length = tool_calls.length := by
  simp [execute_tool_calls]

theorem execute_single_tool_ok_shape (env : ExecEnv) (call : ToolCall) (m : ToolMessage)
    (h : execute_single_tool env call = .ok m) :
    m.role = "tool" ∧ m.tool_call_id = call.id ∧ m.name = call.function.name := by
  simp only [execute_single_tool] at h
  match hj : jsonLoads call.function.arguments with
  | none => rw [hj] at h; simp at h
  | some args =>
    simp only [hj] at h
    match args, h with
    | .obj kvs, h =>
      match hf : get_tool_function env call.function.name with
      | .error e => rw [hf] at h; simp at h
      | .ok f =>
        simp only [hf] at h
        match hr : f kvs with
        | .error e => rw [hr] at h; simp at h
        | .ok result =>
          simp only [hr, Except.ok.injEq] at h
          subst h
          exact ⟨rfl, rfl, rfl⟩
    | .null, h => simp at h
    | .bool b, h => simp at h
    | .num n, h => simp at h
    | .str s, h => simp at h
    | .arr vs, h => simp at h

/-- C1: tool-call-level errors never escape `execute_tool_calls` as
exceptions: a call whose execution fails with exception `e` (argument
parsing, dict check, tool resolution or callable execution) still produces
its positional result, a `ToolMessage` whose content is the JSON object
with fields `error` (the message text), `error_type` (the exception class
name) and `tool_name` (the requested name). -/
theorem C1_errors_become_messages (env : ExecEnv) (tool_calls : List ToolCall)
    (i : Nat) (call : ToolCall) (hcall : tool_calls.get? i = some call)
    (e : PyExc) (he : execute_single_tool env call = .error e) :
    ∃ m, (execute_tool_calls env tool_calls).get? i = some m ∧
      m.role = "tool" ∧ m.tool_call_id = call.id ∧ m.name = call.function.name ∧
      jsonLoads m.content = some (.obj
        [("error", .str e.msg), ("error_type", .str e.etype),
         ("tool_name", .str call.function.name)]) := by
  refine ⟨create_error_message call e, ?_, rfl, rfl, rfl, ?_⟩
  · rw [show execute_tool_calls env tool_calls = tool_calls.map (fun c =>
        match execute_single_tool env c with
        | .ok m => m
        | .error er => create_error_message c er) from rfl]
    rw [List.get?_map, hcall]
    simp [he]
  · simp only [create_error_message]
    exact jsonLoads_dumps _

theorem C1_witness :
    (([(⟨"id1", ⟨"Nope", "{}"⟩⟩ : ToolCall)].get? 0) = some ⟨"id1", ⟨"Nope", "{}"⟩⟩) ∧
    (execute_single_tool ⟨[], fun _ => "err"⟩ ⟨"id1", ⟨"Nope", "{}"⟩⟩ =
      .error ⟨"ValueError", "Tool 'Nope' not found. Available tools: []"⟩) ∧
    (∃ m, (execute_tool_calls ⟨[], fun _ => "err"⟩
        [⟨"id1", ⟨"Nope", "{}"⟩⟩]).get? 0 = some m ∧
      m.role = "tool" ∧ m.tool_call_id = "id1" ∧ m.name = "Nope" ∧
      jsonLoads m.content = some (.obj
        [("error", .str "Tool 'Nope' not found. Available tools: []"),
         ("error_type", .str "ValueError"), ("tool_name", .str "Nope")])) :=
  ⟨rfl, rfl, C1_errors_become_messages ⟨[], fun _ => "err"⟩ [⟨"id1", ⟨"Nope", "{}"⟩⟩]
    0 ⟨"id1", ⟨"Nope", "{}"⟩⟩ rfl ⟨"ValueError",
      "Tool 'Nope' not found. Available tools: []"⟩ rfl⟩

/-- C2: `execute_tool_calls` returns exactly one `ToolMessage` per input
call, the `i`-th result carrying the `i`-th call's id regardless of which
calls fail; the empty input yields the empty output and performs no tool
invocation. -/
theorem C2_batch_shape (env : ExecEnv) (tool_calls : List ToolCall) :
    (execute_tool_calls env tool_calls).length = tool_calls.length ∧
    (∀ i call, tool_calls.get? i = some call →
      ∃ m, (execute_tool_calls env tool_calls).get? i = some m ∧
        m.tool_call_id = call.id) ∧
    execute_tool_calls env [] = [] ∧ toolInvocations env [] = [] := by
  refine ⟨execute_tool_calls_length env tool_calls, ?_, rfl, rfl⟩
  intro i call hcall
  match hex : execute_single_tool env call with
  | .ok m =>
    refine ⟨m, ?_, (execute_single_tool_ok_shape env call m hex).2.1⟩
    rw [show execute_tool_calls env tool_calls = tool_calls.map (fun c =>
        match execute_single_tool env c with
        | .ok m2 => m2
        | .error er => create_error_message c er) from rfl]
    rw [List.get?_map, hcall]
    simp [hex]
  | .error e =>
    refine ⟨create_error_message call e, ?_, rfl⟩
    rw [show execute_tool_calls env tool_calls = tool_calls.map (fun c =>
        match execute_single_tool env c with
        | .ok m2 => m2
        | .error er => create_error_message c er) from rfl]
    rw [List.get?_map, hcall]
    simp [hex]

/-- C3 (amended): when `query_llm` is called with a tool name that is not
registered, the registry's unknown-tool `ValueError` (which enumerates the
available tool names) does NOT propagate unchanged: `_prepare_tools` runs
inside `query_llm`'s `try` block, so the error surfaces as an
`LLMException` whose message is the registry text prefixed with
"Failed to query LLM: "; no request is issued. -/
theorem C3_unknown_tool_wrapped (net : Request → Except PyExc Completion)
    (env : ExecEnv) (messages : Sum Message (List Message)) (json_response : Bool)
    (max_tokens : Int) (temperature top_p : Option ℚ) (name : String)
    (hv : validation_error max_tokens temperature top_p = none)
    (hname : get_tool env name = none) :
    query_llm net env messages json_response (some (.inr [name])) max_tokens
        temperature top_p =
      (.error (.llmError ("Failed to query LLM: " ++ ("Unknown tool: " ++ name ++
        ". Available tools: " ++ pyListRepr (list_tool_names env))) none), []) := by
  have hprep : get_tool_schemas env [name] = .error ("Unknown tool: " ++ name ++
      ". Available tools: " ++ pyListRepr (list_tool_names env)) := by
    simp only [get_tool_schemas, hname]
  simp only [query_llm, hv, toolsTruthy, prepare_tools, normalizeToolNames, hprep]
  simp [Except.map]

theorem C3_witness :
    (validation_error 5 none none = none) ∧
    (get_tool ⟨[⟨"EchoTool", "schemaE", fun kvs => .ok (.prim (.obj kvs))⟩],
      fun _ => "decode error"⟩ "Nope" = none) ∧
    (query_llm (fun _ => .error ⟨"RuntimeError", "no net"⟩)
        ⟨[⟨"EchoTool", "schemaE", fun kvs => .ok (.prim (.obj kvs))⟩],
          fun _ => "decode error"⟩
        (.inl ⟨"user", "hi"⟩) false (some (.inr ["Nope"])) 5 none none =
      (.error (.llmError ("Failed to query LLM: " ++ ("Unknown tool: " ++ "Nope" ++
        ". Available tools: " ++ pyListRepr ["EchoTool"])) none), [])) :=
  ⟨rfl, rfl, C3_unknown_tool_wrapped (fun _ => .error ⟨"RuntimeError", "no net"⟩)
    ⟨[⟨"EchoTool", "schemaE", fun kvs => .ok (.prim (.obj kvs))⟩], fun _ => "decode error"⟩
    (.inl ⟨"user", "hi"⟩) false 5 none none "Nope" rfl rfl⟩

theorem C3_counterexample :
    query_llm (fun _ => .error ⟨"RuntimeError", "no net"⟩)
        ⟨[⟨"EchoTool", "schemaE", fun kvs => .ok (.prim (.obj kvs))⟩],
          fun _ => "decode error"⟩
        (.inl ⟨"user", "hi"⟩) false (some (.inr ["Nope"])) 5 none none =
      (.error (.llmError
        "Failed to query LLM: Unknown tool: Nope. Available tools: ['EchoTool']" none),
       []) ∧
    get_tool_schemas ⟨[⟨"EchoTool", "schemaE", fun kvs => .ok (.prim (.obj kvs))⟩],
        fun _ => "decode error"⟩ ["Nope"] =
      .error "Unknown tool: Nope. Available tools: ['EchoTool']" :=
  ⟨rfl, rfl⟩

/-- C4: when the first completion carries k ≥ 1 tool calls, the follow-up
request's message list is exactly the original messages' dumps, then the
assistant's tool-call-bearing message, then one tool result per executed
call in order — total length N + 1 + k. -/
theorem C4_followup_messages (net : Request → Except PyExc Completion)
    (env : ExecEnv) (messages : Sum Message (List Message)) (json_response : Bool)
    (max_tokens : Int) (temperature top_p : Option ℚ) (completion : Completion)
    (hv : validation_error max_tokens temperature top_p = none)
    (hnet : net { messages := (normalize_messages messages).map OutMsg.origDump,
                  max_tokens := max_tokens, tools := none,
                  response_format_json := json_response,
                  temperature := temperature, top_p := top_p } = .ok completion)
    (hk : completion.message.tool_calls ≠ []) :
    ∃ req2, (query_llm net env messages json_response none max_tokens
        temperature top_p).2 =
      [{ messages := (normalize_messages messages).map OutMsg.origDump,
         max_tokens := max_tokens, tools := none,
         response_format_json := json_response,
         temperature := temperature, top_p := top_p }, req2] ∧
      req2.messages = (normalize_messages messages).map OutMsg.origDump ++
        [OutMsg.assistantDump completion.message] ++
        (execute_tool_calls env completion.message.tool_calls).map OutMsg.toolDump ∧
      req2.messages.length = (normalize_messages messages).length + 1 +
        completion.message.tool_calls.length := by
  have hke : completion.message.tool_calls.isEmpty = false := by
    cases hc : completion.message.tool_calls with
    | nil => exact absurd hc hk
    | cons a t => rfl
  simp only [query_llm, hv, hnet, hke]
  refine ⟨⟨followUpMessages (normalize_messages messages) completion.message
      (execute_tool_calls env completion.message.tool_calls),
      max_tokens, none, json_response, temperature, top_p⟩, ?_, ?_, ?_⟩
  · match hnet2 : net _ with
    | .error e => rfl
    | .ok completion2 => rfl
  · rfl
  · simp [followUpMessages, execute_tool_calls_length]
    omega

theorem C4_witness :
    (validation_error 5 none none = none) ∧
    ((fun _ => Except.ok (⟨⟨some "x", [⟨"id1", ⟨"T", "{}"⟩⟩]⟩⟩ : Completion) :
        Request → Except PyExc Completion)
      { messages := (normalize_messages (.inl ⟨"user", "hi"⟩)).map OutMsg.origDump,
        max_tokens := 5, tools := none, response_format_json := false,
        temperature := none, top_p := none } =
      .ok ⟨⟨some "x", [⟨"id1", ⟨"T", "{}"⟩⟩]⟩⟩) ∧
    (∃ req2, (query_llm
        (fun _ => Except.ok (⟨⟨some "x", [⟨"id1", ⟨"T", "{}"⟩⟩]⟩⟩ : Completion))
        ⟨[], fun _ => "e"⟩ (.inl ⟨"user", "hi"⟩) false none 5 none none).2 =
      [{ messages := (normalize_messages (Sum.inl ⟨"user", "hi"⟩)).map OutMsg.origDump,
         max_tokens := 5, tools := none, response_format_json := false,
         temperature := none, top_p := none }, req2] ∧
      req2.messages = (normalize_messages (Sum.inl ⟨"user", "hi"⟩)).map OutMsg.origDump ++
        [OutMsg.assistantDump ⟨some "x", [⟨"id1", ⟨"T", "{}"⟩⟩]⟩] ++
        (execute_tool_calls ⟨[], fun _ => "e"⟩
          [⟨"id1", ⟨"T", "{}"⟩⟩]).map OutMsg.toolDump ∧
      req2.messages.length = (normalize_messages (Sum.inl ⟨"user", "hi"⟩)).length + 1 +
        ([⟨"id1", ⟨"T", "{}"⟩⟩] : List ToolCall).length) :=
  ⟨rfl, rfl, C4_followup_messages
    (fun _ => Except.ok (⟨⟨some "x", [⟨"id1", ⟨"T", "{}"⟩⟩]⟩⟩ : Completion))
    ⟨[], fun _ => "e"⟩ (.inl ⟨"user", "hi"⟩) false 5 none none
    ⟨⟨some "x", [⟨"id1", ⟨"T", "{}"⟩⟩]⟩⟩ rfl rfl (by simp)⟩

/-- C5: `_process_response` with `json_response` raises the dedicated
`LLMException`s for null and for empty/whitespace-only content, and with
`json_response` false returns the assistant message unmodified. -/
theorem C5_process_response (completion : Completion) :
    (completion.message.content = none →
      process_response completion true =
        .error (.llmError "LLM returned None content for JSON response" none)) ∧
    (∀ s, completion.message.content = some s → pyStrip s.data = [] →
      process_response completion true =
        .error (.llmError "LLM returned empty content for JSON response" none)) ∧
    process_response completion false = .ok (.message completion.message) := by
  refine ⟨?_, ?_, rfl⟩
  · intro h
    simp [process_response, h]
  · intro s hs hstrip
    simp [process_response, hs, hstrip]

/-- C6: `clean_json_response` fails immediately on the empty string with
"Empty response received"; when all three parse attempts fail it raises
"Failed to parse JSON response after all attempts" carrying the first 1000
characters of the input, with an ellipsis marker exactly when truncated. -/
theorem C6_clean_failure (response : String) :
    clean_json_response "" = .error ⟨"Empty response received", none⟩ ∧
    (response ≠ "" → jsonLoads response = none → fenceAttempt response = none →
      bracketAttempt response = none →
      clean_json_response response =
        .error ⟨"Failed to parse JSON response after all attempts",
          some (.obj [("response", .str (previewTrunc response))])⟩) ∧
    (1000 < response.length → previewTrunc response = response.take 1000 ++ "...") ∧
    (¬1000 < response.length → previewTrunc response = response) := by
  refine ⟨rfl, ?_, ?_, ?_⟩
  · intro hne h1 h2 h3
    simp [clean_json_response, hne, h1, h2, h3]
  · intro h
    simp [previewTrunc, h]
  · intro h
    simp [previewTrunc, h]

/-- C7 (amended): for every string `s` that parses directly as JSON and
contains no triple backtick, `clean_json_response` on `s` wrapped in a
triple-backtick fenced code block tagged `json` yields the same value as
the direct JSON parse of `s` (which `clean_json_response` on `s` itself
also yields). -/
theorem C7_fenced_roundtrip (s : String) (v : Json) (hl : jsonLoads s = some v)
    (hnt : hasTriple s.data = false) :
    clean_json_response ("```json\n" ++ s ++ "\n```") = .ok v ∧
    clean_json_response s = .ok v := by
  refine ⟨clean_fenced s v hl hnt, ?_⟩
  have hne : s ≠ "" := by
    intro he
    rw [he, show jsonLoads "" = none from rfl] at hl
    simp at hl
  simp [clean_json_response, hne, hl]

theorem C7_witness :
    jsonLoads "\x7b\"k\":1\x7d" = some (.obj [("k", .num 1)]) ∧
    hasTriple ("\x7b\"k\":1\x7d" : String).data = false ∧
    (clean_json_response ("```json\n" ++ "\x7b\"k\":1\x7d" ++ "\n```") =
        .ok (.obj [("k", .num 1)]) ∧
      clean_json_response "\x7b\"k\":1\x7d" = .ok (.obj [("k", .num 1)])) :=
  ⟨rfl, rfl, C7_fenced_roundtrip "\x7b\"k\":1\x7d" (.obj [("k", .num 1)]) rfl rfl⟩

theorem C7_counterexample :
    jsonLoads "\"```\"" = some (.str "```") ∧
    clean_json_response ("```json\n" ++ "\"```\"" ++ "\n```") =
      .error ⟨"Failed to parse JSON response after all attempts",
        some (.obj [("response", .str "```json\n\"```\"\n```")])⟩ :=
  ⟨rfl, rfl⟩

/-- C8: a successful tool call's result is serialized by the duck-typed
precedence — an object-provided `json()` text, else `safe_json_dumps` of
`model_dump()`, else direct JSON serialization of primitives, else the
JSON-encoded `str()` — its `tool_call_id` and `tool_name` equal the
request's id and name, and primitive contents round-trip through the
parser. -/
theorem C8_serialize_roundtrip (env : ExecEnv) (call : ToolCall)
    (kvs : List (String × Json)) (entry : ToolEntry) (ret : ToolRet)
    (hargs : jsonLoads call.function.arguments = some (.obj kvs))
    (hentry : get_tool env call.function.name = some entry)
    (hret : entry.fn kvs = .ok ret) :
    execute_single_tool env call =
      .ok ⟨"tool", call.id, call.function.name, serialize_result ret⟩ ∧
    (∀ out, ret = .jsonMethod out → serialize_result ret = out) ∧
    (∀ dump, ret = .modelDump dump → serialize_result ret = safe_json_dumps dump) ∧
    (∀ v, ret = .prim v → serialize_result ret = jsonDumps v ∧
      jsonLoads (serialize_result ret) = some v) ∧
    (∀ srepr, ret = .opaqueObj srepr →
      serialize_result ret = jsonDumps (.str srepr) ∧
      jsonLoads (serialize_result ret) = some (.str srepr)) := by
  refine ⟨?_, ?_, ?_, ?_, ?_⟩
  · have hgf : get_tool_function env call.function.name = .ok entry.fn := by
      simp only [get_tool_function, hentry]
    simp only [execute_single_tool, hargs, hgf, hret]
  · intro out h
    subst h
    rfl
  · intro dump h
    subst h
    rfl
  · intro v h
    subst h
    exact ⟨rfl, jsonLoads_dumps v⟩
  · intro srepr h
    subst h
    exact ⟨rfl, jsonLoads_dumps _⟩

theorem C8_witness :
    (jsonLoads "{}" = some (.obj [])) ∧
    (get_tool ⟨[⟨"EchoTool", "sE", fun kvs => .ok (.prim (.obj kvs))⟩], fun _ => "d"⟩
        "EchoTool" = some ⟨"EchoTool", "sE", fun kvs => .ok (.prim (.obj kvs))⟩) ∧
    ((⟨"EchoTool", "sE", fun kvs => .ok (.prim (.obj kvs))⟩ : ToolEntry).fn [] =
      .ok (.prim (.obj []))) ∧
    (execute_single_tool
        ⟨[⟨"EchoTool", "sE", fun kvs => .ok (.prim (.obj kvs))⟩], fun _ => "d"⟩
        ⟨"id1", ⟨"EchoTool", "{}"⟩⟩ =
      .ok ⟨"tool", "id1", "EchoTool", serialize_result (.prim (.obj []))⟩ ∧
     jsonLoads (serialize_result (.prim (.obj []))) = some (.obj [])) :=
  ⟨rfl, rfl, rfl,
    (C8_serialize_roundtrip
      ⟨[⟨"EchoTool", "sE", fun kvs => .ok (.prim (.obj kvs))⟩], fun _ => "d"⟩
      ⟨"id1", ⟨"EchoTool", "{}"⟩⟩ [] ⟨"EchoTool", "sE", fun kvs => .ok (.prim (.obj kvs))⟩
      (.prim (.obj [])) rfl rfl rfl).1,
    ((C8_serialize_roundtrip
      ⟨[⟨"EchoTool", "sE", fun kvs => .ok (.prim (.obj kvs))⟩], fun _ => "d"⟩
      ⟨"id1", ⟨"EchoTool", "{}"⟩⟩ [] ⟨"EchoTool", "sE", fun kvs => .ok (.prim (.obj kvs))⟩
      (.prim (.obj [])) rfl rfl rfl).2.2.2.1 (.obj []) rfl).2⟩

/-- C9: `query_llm` validates its parameters before any network call: every
`max_tokens < 1` raises the max_tokens `ValueError`, every given
temperature outside `[0, 2]` and every given top_p outside `[0, 1]` raise
their `ValueError`s, each with an empty request trace (no request issued);
`max_tokens = 1` (or larger) passes the parameter check. -/
theorem C9_validation (net : Request → Except PyExc Completion) (env : ExecEnv)
    (messages : Sum Message (List Message)) (json_response : Bool)
    (tools : Option (Sum String (List String))) (temperature top_p : Option ℚ) :
    (∀ max_tokens : Int, max_tokens < 1 →
      query_llm net env messages json_response tools max_tokens temperature top_p =
        (.error (.valueError ("max_tokens must be positive, got " ++
          toString max_tokens)), [])) ∧
    (∀ max_tokens : Int, 1 ≤ max_tokens → ∀ t : ℚ, ¬(0 ≤ t ∧ t ≤ 2) →
      query_llm net env messages json_response tools max_tokens (some t) top_p =
        (.error (.valueError ("temperature must be between 0 and 2, got " ++
          toString t)), [])) ∧
    (∀ max_tokens : Int, 1 ≤ max_tokens → ∀ q : ℚ, ¬(0 ≤ q ∧ q ≤ 1) →
      query_llm net env messages json_response tools max_tokens none (some q) =
        (.error (.valueError ("top_p must be between 0 and 1, got " ++
          toString q)), [])) ∧
    (∀ max_tokens : Int, 1 ≤ max_tokens →
      validation_error max_tokens none none = none) := by
  refine ⟨?_, ?_, ?_, ?_⟩
  · intro mt hmt
    have hve : validation_error mt temperature top_p =
        some ("max_tokens must be positive, got " ++ toString mt) := by
      simp only [validation_error]
      rw [if_pos (by omega)]
    simp only [query_llm, hve]
  · intro mt hmt t ht
    have hb : (decide (0 ≤ t) && decide (t ≤ 2)) = false := by
      rcases Classical.em (0 ≤ t) with h0 | h0
      · have h2 : ¬(t ≤ 2) := fun h2 => ht ⟨h0, h2⟩
        simp [h2]
      · simp [h0]
    have hve : validation_error mt (some t) top_p =
        some ("temperature must be between 0 and 2, got " ++ toString t) := by
      simp only [validation_error, Option.map_some', Option.getD_some, hb]
      rw [if_neg (by omega)]
      simp
    simp only [query_llm, hve]
  · intro mt hmt q hq
    have hb : (decide (0 ≤ q) && decide (q ≤ 1)) = false := by
      rcases Classical.em (0 ≤ q) with h0 | h0
      · have h2 : ¬(q ≤ 1) := fun h2 => hq ⟨h0, h2⟩
        simp [h2]
      · simp [h0]
    have hve : validation_error mt none (some q) =
        some ("top_p must be between 0 and 1, got " ++ toString q) := by
      simp only [validation_error, Option.map_some', Option.getD_some, hb]
      rw [if_neg (by omega)]
      simp
    simp only [query_llm, hve]
  · intro mt hmt
    simp only [validation_error]
    rw [if_neg (by omega)]
    simp

/-- C10: `safe_json_dumps` is total — direct serialization when possible,
else the JSON encoding of the object's `str()` — and its output always
parses back as JSON; consequently the content of every error `ToolMessage`
built by `_create_error_message` is parseable JSON text. -/
theorem C10_safe_dumps_total (obj : PyObj) (call : ToolCall) (e : PyExc) :
    (∀ v, obj = .json v → safe_json_dumps obj = jsonDumps v) ∧
    (∀ srepr, obj = .nonser srepr → safe_json_dumps obj = jsonDumps (.str srepr)) ∧
    (∃ v, jsonLoads (safe_json_dumps obj) = some v) ∧
    jsonLoads (create_error_message call e).content = some (.obj
      [("error", .str e.msg), ("error_type", .str e.etype),
       ("tool_name", .str call.function.name)]) := by
  refine ⟨?_, ?_, ?_, ?_⟩
  · intro v h
    subst h
    rfl
  · intro srepr h
    subst h
    rfl
  · cases obj with
    | json v => exact ⟨v, jsonLoads_dumps v⟩
    | nonser srepr => exact ⟨.str srepr, jsonLoads_dumps _⟩
  · simp only [create_error_message]
    exact jsonLoads_dumps _
